import Mathlib

/-!
Shallow embedding of the salve-dom `Validator` (src/main.ts) and proofs about
the claims on its behaviour.  The grammar engine (salve) is out of scope of the
repository and is modelled abstractly as a record of pure functions
(`VGrammar`); the DOM tree is modelled as an immutable ordered tree
(`DomNode`), with nodes addressed by paths of child indices (innermost index
first).  Expando annotations written by the validator onto DOM nodes are
modelled as a per-validator side table (`AnnStore`) keyed by node reference,
following the design note of the specification.  Walker `clone()` is the
identity because walkers are values here.  The field `firedEvents` of the
state is instrumentation only: it records every event passed to `fireEvent`
on the live validation walker, so that the relation between the event log
and the fired events can be stated.
-/

namespace SalveDom

/-- A validation error reported by the grammar engine (salve `ValidationError`). -/
structure VError where
  msg : String
deriving DecidableEq, Repr

/-- A resolved expanded name (salve `EName`). -/
structure EName where
  ns : String
  name : String
deriving DecidableEq, Repr

/-- Events fired at the grammar walker (salve `Event`).  The constructor
`definePfx` corresponds to the source event named for namespace-declaration
attributes. -/
inductive VEvent where
  | enterContext
  | leaveContext
  | definePfx (pfx value : String)
  | enterStartTag (ns name : String)
  | attributeName (ns name : String)
  | attributeValue (value : String)
  | leaveStartTag
  | text (data : String)
  | endTag (ns name : String)
deriving DecidableEq, Repr

def VEvent.isText : VEvent → Bool
  | .text _ => true
  | _ => false

/-- A name pattern attached to a possible event (salve name patterns), exposing
only the two operations the validator uses. -/
structure NamePattern where
  matchFn : String → String → Bool
  wildcardFn : String → String → Bool

/-- One element of the set returned by `walker.possible()`: the event name
(`params[0]`) and its name pattern (`params[1]`). -/
structure PosEvent where
  name : String
  pat : NamePattern

/-- The abstract grammar engine: walker states of type `W` with the operations
the validator uses (`newWalker`, `fireEvent`, `end`, `possible`,
`resolveName`).  `fireEvent` returns the advanced walker and the reported
errors (empty list standing for salve's `false`). -/
structure VGrammar (W : Type) where
  newWalker : W
  fireEvent : W → VEvent → W × List VError
  endFn : W → List VError
  possibleFn : W → List PosEvent
  resolveNameFn : W → String → Bool → Option EName

/-- DOM nodes: elements with attributes (name, value pairs) and ordered
children, text nodes and comment nodes. -/
inductive DomNode where
  | element (tag : String) (attrs : List (String × String)) (children : List DomNode)
  | text (data : String)
  | comment (data : String)

/-- A validator context: the grammar and the root of the tree being
validated (constructor arguments `schema` and `root`). -/
structure VCtx (W : Type) where
  g : VGrammar W
  root : DomNode

/-- A path addresses a node in the tree: `[]` is the root, `i :: p` is child
number `i` (in `childNodes` order) of the node at `p`. -/
abbrev Path := List Nat

def DomNode.children : DomNode → List DomNode
  | .element _ _ c => c
  | _ => []

def DomNode.attrsOf : DomNode → List (String × String)
  | .element _ a _ => a
  | _ => []

def DomNode.isElement : DomNode → Bool
  | .element _ _ _ => true
  | _ => false

/-- `childElementCount` of a node. -/
def DomNode.childElementCount (n : DomNode) : Nat :=
  (n.children.filter DomNode.isElement).length

/-- Node lookup along a path (innermost index first). -/
def getNode (root : DomNode) : Path → Option DomNode
  | [] => some root
  | i :: p =>
    match getNode root p with
    | some n => n.children.get? i
    | none => none

/-- `childNodes[i]` for a possibly negative (JavaScript) index. -/
def childAtI (n : DomNode) (i : Int) : Option DomNode :=
  if i < 0 then none else n.children.get? i.toNat

/-- Index of the previous element sibling strictly before position `j`
(`previousElementSibling`). -/
def prevElemIdx (sibs : List DomNode) : Nat → Option Nat
  | 0 => none
  | k + 1 =>
    match sibs.get? k with
    | some n => if n.isElement then some k else prevElemIdx sibs k
    | none => prevElemIdx sibs k

/-- Index of the last element child (`lastElementChild`). -/
def lastElemIdx (sibs : List DomNode) : Option Nat :=
  prevElemIdx sibs sibs.length

/-- Reference to a place where the validator stores expando annotations or
attaches errors: a tree node, or attribute number `i` of the element at `p`. -/
inductive NodeRef where
  | tree (p : Path)
  | attr (p : Path) (i : Nat)
deriving DecidableEq, Repr

/-- The expando properties the validator sets on a node (`CustomNodeProperties`). -/
structure NodeAnn where
  eventIndexAfter : Option Nat := none
  eventIndexAfterStart : Option Nat := none
  eventIndexBeforeAttributes : Option Nat := none
  eventIndexAfterAttributes : Option Nat := none
  possibleDueToWildcard : Option Bool := none
deriving DecidableEq, Repr

/-- The per-validator side table of node annotations. -/
abbrev AnnStore := List (NodeRef × NodeAnn)

def getAnn : AnnStore → NodeRef → NodeAnn
  | [], _ => {}
  | (r', a) :: t, r => if r' = r then a else getAnn t r

def setAnn : AnnStore → NodeRef → (NodeAnn → NodeAnn) → AnnStore
  | [], r, f => [(r, f {})]
  | (r', a) :: t, r, f => if r' = r then (r', f a) :: t else (r', a) :: setAnn t r f

def hasRef : AnnStore → NodeRef → Bool
  | [], _ => false
  | (r', _) :: t, r => r' = r || hasRef t r

/-- The four event-index annotation keys. -/
inductive AnnKey where
  | after
  | afterStart
  | beforeAttributes
  | afterAttributes
deriving DecidableEq, Repr

def NodeAnn.idx (a : NodeAnn) : AnnKey → Option Nat
  | .after => a.eventIndexAfter
  | .afterStart => a.eventIndexAfterStart
  | .beforeAttributes => a.eventIndexBeforeAttributes
  | .afterAttributes => a.eventIndexAfterAttributes

def NodeAnn.setIdx (a : NodeAnn) : AnnKey → Nat → NodeAnn
  | .after, v => { a with eventIndexAfter := some v }
  | .afterStart, v => { a with eventIndexAfterStart := some v }
  | .beforeAttributes, v => { a with eventIndexBeforeAttributes := some v }
  | .afterAttributes, v => { a with eventIndexAfterAttributes := some v }

def getAnnIdx (st : AnnStore) (r : NodeRef) (k : AnnKey) : Option Nat :=
  (getAnn st r).idx k

def setAnnIdx (st : AnnStore) (r : NodeRef) (k : AnnKey) (v : Nat) : AnnStore :=
  setAnn st r (fun a => a.setIdx k v)

/-- `WorkingState`. -/
inductive WState where
  | incomplete
  | working
  | invalid
  | valid
deriving DecidableEq, Repr

/-- `Stage`: validation stage of the current node. -/
inductive Stage where
  | startTag
  | contents
  | endTag
deriving DecidableEq, Repr

/-- `ProgressState`. -/
structure ProgressState where
  partDone : ℚ
  portion : ℚ
deriving DecidableEq, Repr

/-- `ErrorData`: a grammar error with the node and index it belongs to. -/
structure ErrorData where
  error : VError
  node : Option NodeRef := none
  index : Option Nat := none
deriving DecidableEq, Repr

/-- A notification published through the validator's event emitter. -/
inductive Notice where
  | ntcError (e : ErrorData)
  | resetErrors (atIx : Nat)
  | stateUpdate (st : WState) (partDone : ℚ)
  | wildcardChange (n : NodeRef)
deriving DecidableEq, Repr

/-- The mutable state of a `Validator`.  `firedEvents` is instrumentation: the
ordered list of all events passed to `fireEvent` on the live validation
walker; `notices` records the published notifications in order. -/
structure VState (W : Type) where
  cycleEntered : Int
  restarting : Bool
  errors : List ErrorData
  validationEvents : List VEvent
  firedEvents : List VEvent
  validationWalker : W
  workingState : WState
  partDone : ℚ
  validationStage : Stage
  previousChild : Option Nat
  validationStack : List ProgressState
  curEl : Path
  walkerCache : List (Nat × W)
  walkerCacheMax : Int
  annots : AnnStore
  notices : List Notice
  timeoutActive : Bool
deriving DecidableEq

/-- Configuration resulting from option processing in the constructor. -/
structure VConfig where
  pfx : String := "salveDom"
  timeout : Int := 200
  maxTimespan : Int := 100
  walkerCacheGap : Int := 100
deriving DecidableEq, Repr

/-- The `Options` object accepted by the constructor. -/
structure VOptions where
  pfx : Option String := none
  timeout : Option Int := none
  maxTimespan : Option Int := none
  walkerCacheGap : Option Int := none
deriving DecidableEq, Repr

/-- Processing of one optional numeric configuration key in the `Validator`
constructor: absent keeps the default, an explicit negative value throws,
a non-negative value replaces the default. -/
def applyOpt (dflt : Int) (nm : String) (v? : Option Int) : Except String Int :=
  match v? with
  | none => .ok dflt
  | some v =>
    if v < 0 then .error ("the value for " ++ nm ++ " cannot be negative")
    else .ok v

/-- Option processing performed by the `Validator` constructor: the keys
`timeout`, `maxTimespan` and `walkerCacheGap` are checked in that order;
an explicitly supplied negative value throws; a supplied non-negative value
replaces the default; a truthy `prefix` replaces the default prefix. -/
def applyOptions (o : VOptions) : Except String VConfig :=
  match applyOpt 200 "timeout" o.timeout with
  | .error e => .error e
  | .ok t =>
    match applyOpt 100 "maxTimespan" o.maxTimespan with
    | .error e => .error e
    | .ok m =>
      match applyOpt 100 "walkerCacheGap" o.walkerCacheGap with
      | .error e => .error e
      | .ok g =>
        match o.pfx with
        | some p =>
          if p = "" then
            .ok { pfx := "salveDom", timeout := t, maxTimespan := m, walkerCacheGap := g }
          else .ok { pfx := p, timeout := t, maxTimespan := m, walkerCacheGap := g }
        | none =>
          .ok { pfx := "salveDom", timeout := t, maxTimespan := m, walkerCacheGap := g }

variable {W : Type}

/-- The state built by the `Validator` constructor: the root gets
`EventIndexAfterStart = 0` (current event-log length) and the working state
starts `INCOMPLETE` (no `state-update` notice is emitted because nothing
changes). -/
def initState (C : VCtx W) : VState W where
  cycleEntered := 0
  restarting := false
  errors := []
  validationEvents := []
  firedEvents := []
  validationWalker := C.g.newWalker
  workingState := .incomplete
  partDone := 0
  validationStage := .contents
  previousChild := none
  validationStack := [⟨0, 1⟩]
  curEl := []
  walkerCache := []
  walkerCacheMax := -1
  annots := setAnn [] (.tree []) (fun a => { a with eventIndexAfterStart := some 0 })
  notices := []
  timeoutActive := false

/-- `_processError`: record the error and publish an `error` notification. -/
def processError (e : ErrorData) (s : VState W) : VState W :=
  { s with errors := s.errors ++ [e], notices := s.notices ++ [.ntcError e] }

/-- `_processEventResult`: wrap each grammar error with its node and index. -/
def processEventResult (errs : List VError) (n : Option NodeRef) (ix : Option Nat)
    (s : VState W) : VState W :=
  errs.foldl (fun s r => processError ⟨r, n, ix⟩ s) s

/-- `_setWorkingState`: update state and progress, publishing `state-update`
only when one of them changed. -/
def setWorkingState (st : WState) (nd : ℚ) (s : VState W) : VState W :=
  let s' := { s with workingState := st, partDone := nd }
  if s.workingState = st ∧ s.partDone = nd then s'
  else { s' with notices := s'.notices ++ [.stateUpdate st nd] }

/-- `_stop`: cancel the pending timer; with no explicit state, demote a
`WORKING` validator to `INCOMPLETE`; otherwise set the supplied state. -/
def stopWith (st : Option WState) (s : VState W) : VState W :=
  let s := { s with timeoutActive := false }
  match st with
  | none =>
    if s.workingState = .working then setWorkingState .incomplete s.partDone s else s
  | some w => setWorkingState w s.partDone s

/-- Loop body of `isPossibleDueToWildcard`: scan the possible events,
returning `false` as soon as one matching pattern is not a pure wildcard
match, and otherwise whether anything matched at all. -/
def iPDTWLoop (eventName ns nm : String) : List PosEvent → Bool → Bool
  | [], matched => matched
  | ev :: rest, matched =>
    if ev.name ≠ eventName then iPDTWLoop eventName ns nm rest matched
    else
      let m := ev.pat.matchFn ns nm
      if m && !(ev.pat.wildcardFn ns nm) then false
      else iPDTWLoop eventName ns nm rest (matched || m)

/-- `isPossibleDueToWildcard`: the event is allowed, but only through
name-pattern wildcards. -/
def isPossibleDueToWildcard (G : VGrammar W) (w : W) (eventName ns nm : String) : Bool :=
  iPDTWLoop eventName ns nm (G.possibleFn w) false

/-- `_setPossibleDueToWildcard`: store the computed flag on the node and
publish `possible-due-to-wildcard-change` when the previous stored value was
absent or different. -/
def setPossibleDueToWildcard (C : VCtx W) (node : NodeRef) (w : W)
    (eventName ns nm : String) (s : VState W) : VState W :=
  let previous := (getAnn s.annots node).possibleDueToWildcard
  let possible := isPossibleDueToWildcard C.g w eventName ns nm
  let s := { s with
    annots := setAnn s.annots node (fun a => { a with possibleDueToWildcard := some possible }) }
  if previous = none ∨ previous ≠ some possible then
    { s with notices := s.notices ++ [.wildcardChange node] }
  else s

/-- `_fireAndProcessEvent`: push the event on the event log, fire it at the
given walker and process the resulting errors.  `live` is instrumentation:
it marks the calls whose walker is the live validation walker, so that the
fired event is also recorded in `firedEvents`. -/
def fireAndProcessEvent (C : VCtx W) (w : W) (ev : VEvent) (el : Option NodeRef)
    (ix : Option Nat) (live : Bool) (s : VState W) : W × VState W :=
  let s := { s with
    validationEvents := s.validationEvents ++ [ev],
    firedEvents := if live then s.firedEvents ++ [ev] else s.firedEvents }
  let fr := C.g.fireEvent w ev
  (fr.1, processEventResult fr.2 el ix s)

/-- `_fireAndProcessEvent` applied to the live validation walker, writing the
advanced walker back into the state. -/
def fireLive (C : VCtx W) (ev : VEvent) (el : Option NodeRef) (ix : Option Nat)
    (s : VState W) : VState W :=
  let p := fireAndProcessEvent C s.validationWalker ev el ix true s
  { p.2 with validationWalker := p.1 }

/-- `_fireAttributeNameEvent`: resolve the attribute name; on failure record
an error and fire nothing; on success record the wildcard flag and fire
`attributeName`.  Returns whether the event was fired, the advanced walker
and the new state. -/
def fireAttributeNameEvent (C : VCtx W) (w : W) (p : Path) (i : Nat) (an : String)
    (live : Bool) (s : VState W) : Bool × W × VState W :=
  match C.g.resolveNameFn w an true with
  | none =>
    (false, w,
      processError ⟨⟨"cannot resolve attribute name " ++ an⟩, some (.attr p i), some 0⟩ s)
  | some en =>
    let s := setPossibleDueToWildcard C (.attr p i) w "attributeName" en.ns en.name s
    let q := fireAndProcessEvent C w (.attributeName en.ns en.name)
      (some (.attr p i)) (some 0) live s
    (true, q.1, q.2)

/-- Loop of `_fireAttributeEvents` over the attributes of an element:
namespace attributes (name starting with "xmlns") are skipped; for the
others the name event and, if it was fired, the value event are fired on the
live walker. -/
def fireAttributeEventsLoop (C : VCtx W) (p : Path) :
    Nat → List (String × String) → VState W → VState W
  | _, [], s => s
  | i, (an, av) :: rest, s =>
    if an = "xmlns" || an.startsWith "xmlns" then
      fireAttributeEventsLoop C p (i + 1) rest s
    else
      let r := fireAttributeNameEvent C s.validationWalker p i an true s
      let s := { r.2.2 with validationWalker := r.2.1 }
      let s :=
        if r.1 then fireLive C (.attributeValue av) (some (.attr p i)) (some 0) s
        else s
      fireAttributeEventsLoop C p (i + 1) rest s

/-- Namespace-declaration pass at the beginning of the start-tag stage:
fire a `definePrefix` event for each `xmlns` / `xmlns:` attribute. -/
def fireNsEvents (C : VCtx W) (curPath : Path) :
    List (String × String) → VState W → VState W
  | [], s => s
  | (an, av) :: rest, s =>
    let s :=
      if an = "xmlns" then
        fireLive C (.definePfx "" av) (some (.tree curPath)) (some 0) s
      else if an.startsWith "xmlns:" then
        fireLive C (.definePfx (an.drop 6) av) (some (.tree curPath)) (some 0) s
      else s
    fireNsEvents C curPath rest s

/-- Set an event-index annotation inside the state. -/
def setAnnIdxS (r : NodeRef) (k : AnnKey) (v : Nat) (s : VState W) : VState W :=
  { s with annots := setAnnIdx s.annots r k v }

/-- The `START_TAG` stage of `_cycle` for the current element. -/
def runStartTag (C : VCtx W) (portion : ℚ) (s : VState W) :
    Except String (VState W × Bool) :=
  match s.curEl with
  | [] => .error "internal error: start tag stage at the root"
  | cIdx :: pPath =>
    let curPath := cIdx :: pPath
    match getNode C.root curPath with
    | some (.element tag attrs _) =>
      let s := { s with validationStack := ⟨s.partDone, portion⟩ :: s.validationStack }
      let s := fireLive C .enterContext (some (.tree curPath)) (some 0) s
      let s := fireNsEvents C curPath attrs s
      let es :=
        match C.g.resolveNameFn s.validationWalker tag false with
        | none =>
          (EName.mk "" tag,
            processEventResult [⟨"cannot resolve the name " ++ tag⟩]
              (some (.tree pPath)) (some cIdx) s)
        | some en => (en, s)
      let en := es.1
      let s := es.2
      let s := setPossibleDueToWildcard C (.tree curPath) s.validationWalker
        "enterStartTag" en.ns en.name s
      let s := fireLive C (.enterStartTag en.ns en.name) (some (.tree pPath)) (some cIdx) s
      let s := setAnnIdxS (.tree curPath) .beforeAttributes s.validationEvents.length s
      let s := fireAttributeEventsLoop C curPath 0 attrs s
      let s := setAnnIdxS (.tree curPath) .afterAttributes s.validationEvents.length s
      let s := fireLive C .leaveStartTag (some (.tree curPath)) (some 0) s
      let s := { s with validationStage := .contents }
      let s := setAnnIdxS (.tree curPath) .afterStart s.validationEvents.length s
      .ok ({ s with cycleEntered := s.cycleEntered - 1 }, true)
    | _ => .error "internal error: start tag stage on a non-element"

/-- `flushText`: fire the accumulated text as one `text` event on the live
walker (the event is not pushed on the event log) and process the errors. -/
def flushText (C : VCtx W) (curPath : Path) (acc : List String) (accNode : Option Nat)
    (s : VState W) : VState W :=
  if acc.isEmpty then s
  else
    let ev := VEvent.text (String.join acc)
    let s := { s with firedEvents := s.firedEvents ++ [ev] }
    let fr := C.g.fireEvent s.validationWalker ev
    let s := { s with validationWalker := fr.1 }
    processEventResult fr.2 (some (.tree curPath)) (some (accNode.getD 0)) s

/-- The `END_TAG` stage of `_cycle`.  At the root: finalize the automaton,
record its errors, run document validation (a no-op by default), mark
progress complete and stop with `VALID` or `INVALID`.  Elsewhere: fire
`endTag` and `leaveContext`, ascend, fold the progress frame and yield. -/
def runEndTag (C : VCtx W) (portion : ℚ) (s : VState W) :
    Except String (VState W × Bool) :=
  match s.curEl with
  | [] =>
    let errs := C.g.endFn s.validationWalker
    let s := processEventResult errs (some (.tree [])) (some C.root.children.length) s
    let s := setAnnIdxS (.tree []) .after s.validationEvents.length s
    let s := { s with partDone := 1 }
    let s := stopWith (some (if s.errors.length > 0 then .invalid else .valid)) s
    .ok ({ s with cycleEntered := s.cycleEntered - 1 }, false)
  | cIdx :: pPath =>
    let curPath := cIdx :: pPath
    match getNode C.root curPath with
    | some (.element tag _ ch) =>
      let en := (C.g.resolveNameFn s.validationWalker tag false).getD ⟨"", tag⟩
      let cc := ch.length
      let s := fireLive C (.endTag en.ns en.name) (some (.tree curPath)) (some cc) s
      let s := fireLive C .leaveContext (some (.tree curPath)) (some cc) s
      let s := { s with previousChild := some cIdx, curEl := pPath }
      match pPath with
      | [] =>
        let s := setWorkingState .working s.partDone s
        let s := setAnnIdxS (.tree curPath) .after s.validationEvents.length s
        let s := { s with validationStage := .contents }
        .ok ({ s with cycleEntered := s.cycleEntered - 1 }, true)
      | _ :: _ =>
        match s.validationStack with
        | _ :: f :: restStack =>
          let nd := f.partDone + portion
          let s := { s with validationStack := ⟨nd, f.portion⟩ :: restStack }
          let s := setWorkingState .working nd s
          let s := setAnnIdxS (.tree curPath) .after s.validationEvents.length s
          let s := { s with validationStage := .contents }
          .ok ({ s with cycleEntered := s.cycleEntered - 1 }, true)
        | _ => .error "internal error: validation stack underflow"
    | _ => .error "internal error: end tag stage on a non-element"

/-- The child-scanning loop of the `CONTENTS` stage: `j` is the index of the
head of `rest` in the current element's `childNodes`; text data is
accumulated (`acc`/`accNode`) and flushed as one event before descending or
closing. -/
def contentsScan (C : VCtx W) (portion : ℚ) (curPath : Path) (cec : Nat) :
    Nat → List DomNode → List String → Option Nat → VState W →
    Except String (VState W × Bool)
  | _, [], acc, accNode, s =>
    let s := flushText C curPath acc accNode s
    let s := { s with validationStage := .endTag }
    runEndTag C portion s
  | j, n :: rest, acc, accNode, s =>
    match n with
    | .text d =>
      contentsScan C portion curPath cec (j + 1) rest (acc ++ [d])
        (match accNode with | none => some j | some k => some k) s
    | .comment _ => contentsScan C portion curPath cec (j + 1) rest acc accNode s
    | .element _ _ _ =>
      let s := flushText C curPath acc accNode s
      let portion' := portion / (cec : ℚ)
      let s := { s with curEl := j :: curPath, validationStage := .startTag,
                        previousChild := none }
      runStartTag C portion' s

/-- The `CONTENTS` stage of `_cycle`: resume the child walk after
`previousChild` (or from the first child). -/
def runContents (C : VCtx W) (portion : ℚ) (s : VState W) :
    Except String (VState W × Bool) :=
  match getNode C.root s.curEl with
  | none => .error "internal error: current element not found"
  | some cur =>
    let startIdx := match s.previousChild with | none => 0 | some i => i + 1
    contentsScan C portion s.curEl cur.childElementCount startIdx
      (cur.children.drop startIdx) [] none s

/-- `_cycle`: one unit of validation work.  Returns the new state and whether
more work remains; throws on re-entry and on internal errors. -/
def cycle (C : VCtx W) (s : VState W) : Except String (VState W × Bool) :=
  let s := { s with restarting := false }
  if s.cycleEntered > 0 then .error "internal error: _cycle is being reentered"
  else if s.cycleEntered < 0 then .error "internal error: _cycleEntered negative"
  else
    let s := { s with cycleEntered := s.cycleEntered + 1 }
    match s.validationStack with
    | [] => .error "internal error: empty validation stack"
    | top :: _ =>
      let portion := top.portion
      match s.validationStage with
      | .startTag => runStartTag C portion s
      | .contents => runContents C portion s
      | .endTag => runEndTag C portion s

/-- Iterated `_cycle` (the work loop without its real-time bound): run up to
`fuel` cycles, stopping when a cycle reports that no work remains.  The
boolean result is `false` exactly when validation ran to completion. -/
def run (C : VCtx W) : Nat → VState W → Except String (VState W × Bool)
  | 0, s => .ok (s, true)
  | fuel + 1, s =>
    match cycle C s with
    | .error e => .error e
    | .ok r => if r.2 then run C fuel r.1 else .ok (r.1, false)

/-- Construction followed by a full work loop: process the options as the
constructor does (possibly throwing on a negative value) and, on success,
run the freshly constructed validator.  The traversal itself never consults
the configuration (in particular not `walkerCacheGap`, which is read only by
the query-time `readyWalker`). -/
def runValidator (C : VCtx W) (o : VOptions) (fuel : Nat) :
    Except String (VState W × Bool) :=
  match applyOptions o with
  | .error e => .error e
  | .ok _ => run C fuel (initState C)

/-- Association lookup in the walker cache. -/
def lookupCache : List (Nat × W) → Nat → Option W
  | [], _ => none
  | (i, w) :: t, j => if i = j then some w else lookupCache t j

/-- Backward scan of `readyWalker`: try indices `k-1, ..., 0` in order and
return the first cached walker found. -/
def scanDown (cache : List (Nat × W)) : Nat → Option (Nat × W)
  | 0 => none
  | k + 1 =>
    match lookupCache cache k with
    | some w => some (k, w)
    | none => scanDown cache k

/-- The search step of `readyWalker`: from which index the replay starts and
the cached walker used as base (`none` means a fresh walker from index 0). -/
def readySearch (cache : List (Nat × W)) (mx : Int) (idx : Nat) : Nat × Option W :=
  if (idx : Int) ≥ mx then
    if mx < 0 then (0, none)
    else
      match lookupCache cache mx.toNat with
      | some w => (mx.toNat, some w)
      | none => (0, none)
  else
    match scanDown cache idx with
    | some jw => (jw.1, some jw.2)
    | none => (0, none)

/-- The walker state obtained by replaying the first `n` logged events on a
fresh walker. -/
def replayTo (G : VGrammar W) (log : List VEvent) (n : Nat) : W :=
  (log.take n).foldl (fun w e => (G.fireEvent w e).1) G.newWalker

/-- `readyWalker`: return a walker representing the state right after event
`idx?`.  Exact cache hit, else clone the nearest earlier snapshot (or a fresh
walker) and replay the missing events; insert the result in the cache only
when the replay distance was at least `walkerCacheGap`.  Throws
`EventIndexException` when the index is undefined. -/
def readyWalker (C : VCtx W) (cfg : VConfig) (idx? : Option Nat) (s : VState W) :
    Except String (W × VState W) :=
  match idx? with
  | none => .error "undefined event_index; _validateUpTo should have taken care of that"
  | some idx =>
    match lookupCache s.walkerCache idx with
    | some w => .ok (w, s)
    | none =>
      let sb := readySearch s.walkerCache s.walkerCacheMax idx
      let startIx := sb.1
      let w0 := match sb.2 with | some w => w | none => C.g.newWalker
      let w := ((s.validationEvents.take idx).drop startIx).foldl
        (fun a e => (C.g.fireEvent a e).1) w0
      if (idx : Int) - (startIx : Int) ≥ cfg.walkerCacheGap then
        .ok (w, { s with walkerCache := (idx, w) :: s.walkerCache,
                         walkerCacheMax := max (idx : Int) s.walkerCacheMax })
      else .ok (w, s)

/-- The guard shared by `_validateUpTo` and `_getWalkerAt`: asking for
attribute events requires `childNodes[index]` to exist and be an element
(an attribute container has no `childNodes` at all). -/
def attrGuard (root : DomNode) (c : NodeRef) (i : Int) (a : Bool) (msg : String) :
    Except String Unit :=
  if a then
    match c with
    | .attr _ _ => .error msg
    | .tree p =>
      match getNode root p with
      | none => .error "internal error: unknown container"
      | some n =>
        match childAtI n i with
        | some m => if m.isElement then .ok () else .error msg
        | none => .error "type error: childNodes index out of range"
  else .ok ()

/-- The node and annotation key that `_validateUpTo` waits for: `none` means
the empty special case (root container, index 0, no attributes), where no
validation is needed at all. -/
def upToTarget (root : DomNode) (c : NodeRef) (i : Int) (a : Bool) :
    Except String (Option (NodeRef × AnnKey)) :=
  if c = .tree [] ∧ i ≤ 0 then
    if a then
      match childAtI root i with
      | some _ => .ok (some (.tree [i.toNat], .afterAttributes))
      | none => .error "type error: childNodes index out of range"
    else if i = 0 then .ok none
    else .ok (some (.tree [], .after))
  else
    match c with
    | .attr p _ => .ok (some (.tree p, .beforeAttributes))
    | .tree q =>
      match getNode root q with
      | none => .error "internal error: unknown container"
      | some (.text _) =>
        match q with
        | [] => .error "internal error: the root is a text node"
        | j :: p =>
          match getNode root p with
          | none => .error "internal error: unknown container"
          | some parent =>
            match prevElemIdx parent.children j with
            | some j' => .ok (some (.tree (j' :: p), .after))
            | none => .ok (some (.tree p, .afterStart))
      | some (.comment _) => .error "unexpected node type"
      | some n =>
        let ch := n.children
        let node? := if i < 0 then none else ch.get? i.toNat
        let prev? :=
          match node? with
          | none => lastElemIdx ch
          | some _ => prevElemIdx ch i.toNat
        match prev? with
        | some j' => .ok (some (.tree (j' :: q), .after))
        | none =>
          if a then
            match node? with
            | some _ => .ok (some (.tree (i.toNat :: q), .afterAttributes))
            | none => .error "type error: childNodes index out of range"
          else .ok (some (.tree q, .afterStart))

/-- The catch-up loop of `_validateUpTo`: cycle until the target annotation is
present (`fuel` bounds the number of cycles; exhausting it models the
source's divergence when the annotation can never appear). -/
def upToLoop (C : VCtx W) (r : NodeRef) (k : AnnKey) :
    Nat → VState W → Except String (VState W)
  | 0, s =>
    if (getAnnIdx s.annots r k).isSome then .ok s
    else .error "out of fuel in _validateUpTo"
  | fuel + 1, s =>
    if (getAnnIdx s.annots r k).isSome then .ok s
    else
      match cycle C s with
      | .error e => .error e
      | .ok p => upToLoop C r k fuel p.1

/-- `_validateUpTo`: force synchronous validation at least up to the location
`(c, i)` (exclusive), by cycling until the resolved annotation is present. -/
def validateUpTo (C : VCtx W) (fuel : Nat) (c : NodeRef) (i : Int) (a : Bool)
    (s : VState W) : Except String (VState W) :=
  match attrGuard C.root c i a
    "trying to validate after attributes but before the end of the start tag on a node which is not an element node" with
  | .error e => .error e
  | .ok _ =>
    match upToTarget C.root c i a with
    | .error e => .error e
    | .ok none => .ok s
    | .ok (some rk) => upToLoop C rk.1 rk.2 fuel s

/-- Firing a text node's content on a cloned walker (`fireTextEvent`); the
result of `fireEvent` is discarded. -/
def fireTextEv (C : VCtx W) (w : W) (d : String) : W :=
  (C.g.fireEvent w (.text d)).1

/-- The resolution part of `_getWalkerAt` (everything after its call to
`_validateUpTo`): map the location to an event index, obtain a walker there
through `readyWalker`, and fire the extra attribute-name or text event on a
clone where required. -/
def walkerFromState (C : VCtx W) (cfg : VConfig) (c : NodeRef) (i : Int) (a : Bool)
    (s : VState W) : Except String (W × VState W) :=
  if c = .tree [] ∧ i ≤ 0 ∧ ¬a then
    if i = 0 then .ok (C.g.newWalker, s) else .ok (s.validationWalker, s)
  else
    match c with
    | .attr p j =>
      match readyWalker C cfg (getAnnIdx s.annots (.tree p) .beforeAttributes) s with
      | .error e => .error e
      | .ok r =>
        match getNode C.root p with
        | none => .error "internal error: unknown container"
        | some owner =>
          match owner.attrsOf.get? j with
          | none => .error "internal error: unknown attribute"
          | some av =>
            if av.1 = "xmlns" || av.1.startsWith "xmlns:" then .ok r
            else
              let q := fireAttributeNameEvent C r.1 p j av.1 false r.2
              .ok (q.2.1, q.2.2)
    | .tree q =>
      match getNode C.root q with
      | none => .error "internal error: unknown container"
      | some (.text d) =>
        match q with
        | [] => .error "internal error: the root is a text node"
        | j :: p =>
          match getNode C.root p with
          | none => .error "internal error: unknown container"
          | some parent =>
            match readyWalker C cfg
              (match prevElemIdx parent.children j with
                | some j' => getAnnIdx s.annots (.tree (j' :: p)) .after
                | none => getAnnIdx s.annots (.tree p) .afterStart) s with
            | .error e => .error e
            | .ok r => if i > 0 then .ok (fireTextEv C r.1 d, r.2) else .ok r
      | some (.comment _) => .error "unexpected node type"
      | some n =>
        let ch := n.children
        let node? := if i < 0 then none else ch.get? i.toNat
        if a then
          match node? with
          | none => .error "type error: childNodes index out of range"
          | some _ =>
            readyWalker C cfg (getAnnIdx s.annots (.tree (i.toNat :: q)) .afterAttributes) s
        else
          let prev? :=
            match node? with
            | none => lastElemIdx ch
            | some _ => prevElemIdx ch i.toNat
          match readyWalker C cfg
            (match prev? with
              | some j' => getAnnIdx s.annots (.tree (j' :: q)) .after
              | none => getAnnIdx s.annots (.tree q) .afterStart) s with
          | .error e => .error e
          | .ok r =>
            if node?.isSome ∧ 1 ≤ i then
              match ch.get? (i - 1).toNat, prev? with
              | some (.text d), pv =>
                if pv = some (i - 1).toNat then .ok r
                else .ok (fireTextEv C r.1 d, r.2)
              | _, _ => .ok r
            else .ok r

/-- `_getWalkerAt`: guard, force catch-up validation, then resolve the walker
for the location. -/
def getWalkerAt (C : VCtx W) (cfg : VConfig) (fuel : Nat) (c : NodeRef) (i : Int)
    (a : Bool) (s : VState W) : Except String (W × VState W) :=
  match attrGuard C.root c i a
    "trying to get a walker for attribute events on a node which is not an element node" with
  | .error e => .error e
  | .ok _ =>
    match validateUpTo C fuel c i a s with
    | .error e => .error e
    | .ok s => walkerFromState C cfg c i a s

/-- `possibleAt`: the set of events possible at a location (calling
`possible()` does not modify the walker). -/
def possibleAt (C : VCtx W) (cfg : VConfig) (fuel : Nat) (c : NodeRef) (i : Int)
    (a : Bool) (s : VState W) : Except String (List PosEvent × VState W) :=
  match getWalkerAt C cfg fuel c i a s with
  | .error e => .error e
  | .ok r => .ok (C.g.possibleFn r.1, r.2)

/-- `getErrorsFor`: a node must have a parent (else throw); validate up to
just after the node, then keep the errors recorded against exactly
that node, in recording order. -/
def getErrorsFor (C : VCtx W) (fuel : Nat) (p : Path) (s : VState W) :
    Except String (List ErrorData × VState W) :=
  match p with
  | [] => .error "node without a parent!"
  | j :: q =>
    match validateUpTo C fuel (.tree q) ((j : Int) + 1) false s with
    | .error e => .error e
    | .ok s => .ok (s.errors.filter (fun e => decide (e.node = some (.tree p))), s)

/-- `speculativelyValidateFragment`: build a private validator over the
wrapper element, seed its walker with a clone of the live walker at the
target location, force it to traverse the wrapper fully, and return its
errors (or `none` for no errors).  The returned state is the live
validator's state after the call. -/
def speculativelyValidateFragment (C : VCtx W) (cfg : VConfig) (fuel : Nat)
    (c : NodeRef) (i : Int) (toParse : DomNode) (s : VState W) :
    Except String (Option (List ErrorData) × VState W) :=
  match toParse with
  | .element _ _ _ =>
    match getWalkerAt C cfg fuel c i false s with
    | .error e => .error e
    | .ok r =>
      let dupC : VCtx W := ⟨C.g, toParse⟩
      match validateUpTo dupC fuel (.tree [])
        (toParse.children.length : Int) false
        { initState dupC with validationWalker := r.1 } with
      | .error e => .error e
      | .ok dup =>
        .ok ((if dup.errors.length ≠ 0 then some dup.errors else none), r.2)
  | _ => .error "toParse is not an element"

/-- `speculativelyValidate`: clone the fragment (or the list of nodes) into a
throwaway `div` wrapper and validate the wrapper. -/
def speculativelyValidate (C : VCtx W) (cfg : VConfig) (fuel : Nat)
    (c : NodeRef) (i : Int) (toParse : List DomNode ⊕ DomNode) (s : VState W) :
    Except String (Option (List ErrorData) × VState W) :=
  let cloned := match toParse with | .inl ns => ns | .inr n => [n]
  speculativelyValidateFragment C cfg fuel c i (.element "div" [] cloned) s

/-- Boolean bound check on an optional event index. -/
def obnd (o : Option Nat) (n : Nat) : Bool :=
  match o with
  | none => true
  | some v => v ≤ n

/-- All four event-index annotations of a node are bounded by `n`. -/
def annIdxBound (a : NodeAnn) (n : Nat) : Bool :=
  obnd a.eventIndexAfter n && obnd a.eventIndexAfterStart n &&
  obnd a.eventIndexBeforeAttributes n && obnd a.eventIndexAfterAttributes n

/-- Cache consistency: every cached walker is the replay of the event-log
prefix up to its index, and that index lies inside the log. -/
def CacheOK (G : VGrammar W) (log : List VEvent) (cache : List (Nat × W)) : Prop :=
  ∀ p ∈ cache, p.2 = replayTo G log p.1 ∧ p.1 ≤ log.length

/-- All stored event-index annotations point inside the log. -/
def AnnOK (st : AnnStore) (n : Nat) : Prop :=
  ∀ p ∈ st, annIdxBound p.2 n = true

/-- The reachable-state invariant used by the cache and query lemmas. -/
def Good (C : VCtx W) (s : VState W) : Prop :=
  CacheOK C.g s.validationEvents s.walkerCache ∧
  AnnOK s.annots s.validationEvents.length

/-- A grammar that accepts everything it is fed along a run: `fireEvent` and
`end` never report errors and every name resolves.  A document that exactly
matches the grammar gives rise to exactly this situation along its run. -/
def AllAccepting (G : VGrammar W) : Prop :=
  (∀ w e, (G.fireEvent w e).2 = []) ∧ (∀ w, G.endFn w = []) ∧
  (∀ w nm b, (G.resolveNameFn w nm b).isSome = true)

/-- A trivial grammar over `Nat` walker states used for concrete witnesses:
it counts fired events, reports no errors and resolves every name into the
empty namespace. -/
def unitGrammar : VGrammar Nat where
  newWalker := 0
  fireEvent := fun w _ => (w + 1, [])
  endFn := fun _ => []
  possibleFn := fun _ => []
  resolveNameFn := fun _ t _ => some ⟨"", t⟩

/-- Witness tree: a root with one element child. -/
def sampleTree : DomNode := .element "root" [] [.element "a" [] []]

/-- Witness tree with a text child. -/
def textTree : DomNode := .element "root" [] [.text "hi"]

def sampleCtx : VCtx Nat := ⟨unitGrammar, sampleTree⟩

def textCtx : VCtx Nat := ⟨unitGrammar, textTree⟩

/-- Final state of a complete run over the witness tree. -/
def c1Final : VState Nat :=
  match run sampleCtx 9 (initState sampleCtx) with
  | .ok p => p.1
  | .error _ => initState sampleCtx

/-- Final state of a complete run over the tree with a text child. -/
def c4Final : VState Nat :=
  match run textCtx 9 (initState textCtx) with
  | .ok p => p.1
  | .error _ => initState textCtx

/-- A validator state caught mid-run. -/
def workingSample : VState Nat :=
  { initState sampleCtx with workingState := .working }

/-- A validator state whose cycle-entry counter says a cycle is running. -/
def enteredSample : VState Nat :=
  { initState sampleCtx with cycleEntered := 1 }

/-- State after one cycle on the witness tree. -/
def c6Mid : VState Nat :=
  match cycle sampleCtx (initState sampleCtx) with
  | .ok p => p.1
  | .error _ => initState sampleCtx

/-- A grammar that reports one error on every `endTag` event, used to witness
error recording and filtering. -/
def errGrammar : VGrammar Nat where
  newWalker := 0
  fireEvent := fun w e => (w + 1, match e with | .endTag _ _ => [⟨"late"⟩] | _ => [])
  endFn := fun _ => []
  possibleFn := fun _ => []
  resolveNameFn := fun _ t _ => some ⟨"", t⟩

def errCtx : VCtx Nat := ⟨errGrammar, sampleTree⟩

/-- The live state after forcing validation up to just after child 0 of the
root, under the erroring grammar. -/
def c10After : VState Nat :=
  match validateUpTo errCtx 9 (.tree []) 1 false (initState errCtx) with
  | .ok t => t
  | .error _ => initState errCtx

/-- A state in which child 0 already stores a wildcard flag. -/
def c8Stored : VState Nat :=
  setPossibleDueToWildcard sampleCtx (.tree [0]) 0 "x" "" "a" (initState sampleCtx)

/-- The state returned by `readyWalker` when the configured gap is `0`, so
that the snapshot just computed is inserted into the cache. -/
def c2Ins : VState Nat :=
  match readyWalker sampleCtx { walkerCacheGap := 0 } (some 0) (initState sampleCtx) with
  | .ok p => p.2
  | .error _ => initState sampleCtx

/-- Live state left behind by a speculative validation started from the
unvalidated constructor state (the catch-up mutates the live log). -/
def c3After : VState Nat :=
  match speculativelyValidateFragment sampleCtx {} 9 (.tree []) 1
      (.element "div" [] []) (initState sampleCtx) with
  | .ok p => p.2
  | .error _ => initState sampleCtx

/-- Live state left behind by a speculative validation started from the fully
validated final state. -/
def c3Wit : VState Nat :=
  match speculativelyValidateFragment sampleCtx {} 9 (.tree []) 1
      (.element "div" [] []) c1Final with
  | .ok p => p.2
  | .error _ => c1Final

/-- Result and final state of a first `possibleAt` query issued on the
constructor state. -/
def c5First : List PosEvent × VState Nat :=
  match possibleAt sampleCtx {} 9 (.tree []) 1 false (initState sampleCtx) with
  | .ok p => p
  | .error _ => ([], initState sampleCtx)

/-! ### Annotation-store lemmas -/

theorem getAnn_setAnn_self (st : AnnStore) (r : NodeRef) (f : NodeAnn → NodeAnn) :
    getAnn (setAnn st r f) r = f (getAnn st r) := by
  induction st with
  | nil => simp [getAnn, setAnn]
  | cons hd t ih =>
    obtain ⟨r', a⟩ := hd
    by_cases h : r' = r
    · simp [getAnn, setAnn, h]
    · simp [getAnn, setAnn, h, ih]

theorem getAnn_setAnn_other (st : AnnStore) (r r' : NodeRef) (f : NodeAnn → NodeAnn)
    (h : r' ≠ r) : getAnn (setAnn st r f) r' = getAnn st r' := by
  induction st with
  | nil => simp [getAnn, setAnn, Ne.symm h]
  | cons hd t ih =>
    obtain ⟨r'', a⟩ := hd
    by_cases h2 : r'' = r
    · subst h2
      simp [getAnn, setAnn, Ne.symm h]
    · by_cases h3 : r'' = r'
      · simp [getAnn, setAnn, h2, h3, h, Ne.symm h]
      · simp [getAnn, setAnn, h2, h3, ih]

theorem hasRef_setAnn_self (st : AnnStore) (r : NodeRef) (f : NodeAnn → NodeAnn) :
    hasRef (setAnn st r f) r = true := by
  induction st with
  | nil => simp [hasRef, setAnn]
  | cons hd t ih =>
    obtain ⟨r', a⟩ := hd
    by_cases h : r' = r
    · simp [hasRef, setAnn, h]
    · simp [hasRef, setAnn, h, ih]

theorem setAnn_self_of_eq (st : AnnStore) (r : NodeRef) (f : NodeAnn → NodeAnn)
    (hmem : hasRef st r = true) (hfix : f (getAnn st r) = getAnn st r) :
    setAnn st r f = st := by
  induction st with
  | nil => simp [hasRef] at hmem
  | cons hd t ih =>
    obtain ⟨r', a⟩ := hd
    by_cases h : r' = r
    · subst h
      simp [getAnn] at hfix
      simp [setAnn, hfix]
    · simp [hasRef, h] at hmem
      simp [getAnn, h] at hfix
      simp [setAnn, h, ih hmem hfix]

theorem annIdxBound_mono {a : NodeAnn} {n m : Nat} (h : annIdxBound a n = true)
    (hnm : n ≤ m) : annIdxBound a m = true := by
  simp only [annIdxBound, Bool.and_eq_true] at h ⊢
  obtain ⟨⟨⟨h1, h2⟩, h3⟩, h4⟩ := h
  refine ⟨⟨⟨?_, ?_⟩, ?_⟩, ?_⟩ <;>
    [cases ha : a.eventIndexAfter; cases ha : a.eventIndexAfterStart;
     cases ha : a.eventIndexBeforeAttributes; cases ha : a.eventIndexAfterAttributes] <;>
    simp_all [obnd] <;> omega

theorem annOK_mono {st : AnnStore} {n m : Nat} (h : AnnOK st n) (hnm : n ≤ m) :
    AnnOK st m := by
  intro p hp
  exact annIdxBound_mono (h p hp) hnm

theorem annIdxBound_empty (n : Nat) : annIdxBound {} n = true := rfl

theorem annOK_setAnn {st : AnnStore} {n : Nat} {r : NodeRef} {f : NodeAnn → NodeAnn}
    (h : AnnOK st n) (hf : ∀ a, annIdxBound a n = true → annIdxBound (f a) n = true) :
    AnnOK (setAnn st r f) n := by
  induction st with
  | nil =>
    intro p hp
    simp [setAnn] at hp
    subst hp
    exact hf _ (annIdxBound_empty n)
  | cons hd t ih =>
    obtain ⟨r', a⟩ := hd
    have ha : annIdxBound a n = true := h (r', a) (List.mem_cons_self _ _)
    have ht : AnnOK t n := fun p hp => h p (List.mem_cons_of_mem _ hp)
    intro p hp
    by_cases hr : r' = r
    · simp [setAnn, hr] at hp
      rcases hp with hp | hp
      · subst hp
        exact hf _ ha
      · exact ht _ hp
    · simp [setAnn, hr] at hp
      rcases hp with hp | hp
      · subst hp
        exact ha
      · exact ih ht _ hp

theorem annIdxBound_setIdx {a : NodeAnn} {n : Nat} (k : AnnKey) {v : Nat}
    (hv : v ≤ n) (h : annIdxBound a n = true) : annIdxBound (a.setIdx k v) n = true := by
  cases k <;> simp_all [annIdxBound, NodeAnn.setIdx, obnd]

theorem annIdxBound_setWild {a : NodeAnn} {n : Nat} {x : Option Bool}
    (h : annIdxBound a n = true) :
    annIdxBound { a with possibleDueToWildcard := x } n = true := h

theorem getAnnIdx_setWild (st : AnnStore) (r r' : NodeRef) (x : Bool) (k : AnnKey) :
    getAnnIdx (setAnn st r (fun a => { a with possibleDueToWildcard := some x })) r' k =
    getAnnIdx st r' k := by
  by_cases h : r' = r
  · subst h
    unfold getAnnIdx
    rw [getAnn_setAnn_self]
    cases k <;> rfl
  · unfold getAnnIdx
    rw [getAnn_setAnn_other _ _ _ _ h]

/-! ### Cache-consistency lemmas -/

theorem replayTo_append {G : VGrammar W} {log t : List VEvent} {n : Nat}
    (h : n ≤ log.length) : replayTo G (log ++ t) n = replayTo G log n := by
  unfold replayTo
  rw [List.take_append_of_le_length h]

theorem cacheOK_append {G : VGrammar W} {log t : List VEvent} {cache : List (Nat × W)}
    (h : CacheOK G log cache) : CacheOK G (log ++ t) cache := by
  intro p hp
  obtain ⟨h1, h2⟩ := h p hp
  refine ⟨?_, by simp; omega⟩
  rw [replayTo_append h2]
  exact h1

/-! ### The frame relation preserved by the traversal path

`Sim s s'` records the facts about one traversal step (short of the
completing root end-tag) that the claims need: the walker cache is
untouched, the event log only grows, index annotations stay inside the log,
the log remains exactly the non-text fired events, and the working state is
either untouched or set to `working`. -/

structure Sim (s s' : VState W) : Prop where
  cache : s'.walkerCache = s.walkerCache
  cacheMax : s'.walkerCacheMax = s.walkerCacheMax
  log : ∃ t, s'.validationEvents = s.validationEvents ++ t
  ann : AnnOK s.annots s.validationEvents.length →
    AnnOK s'.annots s'.validationEvents.length
  c4 : s.validationEvents = List.filter (fun e => !e.isText) s.firedEvents →
    s'.validationEvents = List.filter (fun e => !e.isText) s'.firedEvents

theorem Sim.refl (s : VState W) : Sim s s :=
  ⟨rfl, rfl, ⟨[], by simp⟩, id, id⟩

theorem Sim.trans {s t u : VState W} (h1 : Sim s t) (h2 : Sim t u) : Sim s u := by
  refine ⟨h2.cache.trans h1.cache, h2.cacheMax.trans h1.cacheMax, ?_, ?_, ?_⟩
  · obtain ⟨t1, ht1⟩ := h1.log
    obtain ⟨t2, ht2⟩ := h2.log
    exact ⟨t1 ++ t2, by rw [ht2, ht1, List.append_assoc]⟩
  · exact fun h => h2.ann (h1.ann h)
  · exact fun h => h2.c4 (h1.c4 h)

/-- `Sim` for a state that differs only in fields `Sim` does not watch
(errors, notices, walker, stage, navigation, progress, timer). -/
theorem Sim.of_same {s s' : VState W} (hc : s'.walkerCache = s.walkerCache)
    (hm : s'.walkerCacheMax = s.walkerCacheMax)
    (hv : s'.validationEvents = s.validationEvents)
    (hf : s'.firedEvents = s.firedEvents)
    (ha : s'.annots = s.annots) : Sim s s' := by
  refine ⟨hc, hm, ⟨[], by simp [hv]⟩, ?_, ?_⟩
  · rw [ha, hv]
    exact id
  · rw [hv, hf]
    exact id

/-! ### Characterizations and frame lemmas for the traversal helpers -/

theorem processEventResult_nil (n : Option NodeRef) (ix : Option Nat) (s : VState W) :
    processEventResult [] n ix s = s := rfl

theorem processEventResult_eq (errs : List VError) (n : Option NodeRef)
    (ix : Option Nat) (s : VState W) :
    processEventResult errs n ix s =
      { s with errors := s.errors ++ errs.map (fun r => ⟨r, n, ix⟩),
               notices := s.notices ++ errs.map (fun r => .ntcError ⟨r, n, ix⟩) } := by
  induction errs generalizing s with
  | nil => simp [processEventResult]
  | cons r t ih =>
    show processEventResult t n ix (processError ⟨r, n, ix⟩ s) = _
    rw [ih]
    simp [processError]

theorem sim_processEventResult (errs : List VError) (n : Option NodeRef)
    (ix : Option Nat) (s : VState W) : Sim s (processEventResult errs n ix s) := by
  rw [processEventResult_eq]
  exact Sim.of_same rfl rfl rfl rfl rfl

theorem setWorkingState_eq (st : WState) (nd : ℚ) (s : VState W) :
    setWorkingState st nd s =
      { s with workingState := st, partDone := nd,
               notices := s.notices ++
                 (if s.workingState = st ∧ s.partDone = nd then []
                  else [.stateUpdate st nd]) } := by
  unfold setWorkingState
  split <;> simp

theorem sim_setWorkingState (st : WState) (nd : ℚ) (s : VState W) :
    Sim s (setWorkingState st nd s) := by
  rw [setWorkingState_eq]
  exact Sim.of_same rfl rfl rfl rfl rfl

theorem setPossibleDueToWildcard_eq (C : VCtx W) (node : NodeRef) (w : W)
    (eventName ns nm : String) (s : VState W) :
    setPossibleDueToWildcard C node w eventName ns nm s =
      { s with
        annots := setAnn s.annots node (fun a =>
          { a with
              possibleDueToWildcard := some (isPossibleDueToWildcard C.g w eventName ns nm) }),
        notices := s.notices ++
          (if (getAnn s.annots node).possibleDueToWildcard = none ∨
              (getAnn s.annots node).possibleDueToWildcard ≠
                some (isPossibleDueToWildcard C.g w eventName ns nm) then
            [.wildcardChange node]
          else []) } := by
  simp only [setPossibleDueToWildcard]
  split
  next => rfl
  next => simp

theorem sim_setPossibleDueToWildcard (C : VCtx W) (node : NodeRef) (w : W)
    (eventName ns nm : String) (s : VState W) :
    Sim s (setPossibleDueToWildcard C node w eventName ns nm s) := by
  rw [setPossibleDueToWildcard_eq]
  refine ⟨rfl, rfl, ⟨[], by simp⟩, ?_, id⟩
  intro h
  exact annOK_setAnn h (fun a ha => annIdxBound_setWild ha)

theorem fireAndProcessEvent_eq (C : VCtx W) (w : W) (ev : VEvent)
    (el : Option NodeRef) (ix : Option Nat) (live : Bool) (s : VState W) :
    fireAndProcessEvent C w ev el ix live s =
      ((C.g.fireEvent w ev).1,
        processEventResult (C.g.fireEvent w ev).2 el ix
          { s with
            validationEvents := s.validationEvents ++ [ev],
            firedEvents := if live then s.firedEvents ++ [ev] else s.firedEvents }) := rfl

theorem fireLive_eq (C : VCtx W) (ev : VEvent) (el : Option NodeRef)
    (ix : Option Nat) (s : VState W) :
    fireLive C ev el ix s =
      { processEventResult (C.g.fireEvent s.validationWalker ev).2 el ix
          { s with
            validationEvents := s.validationEvents ++ [ev],
            firedEvents := s.firedEvents ++ [ev] } with
        validationWalker := (C.g.fireEvent s.validationWalker ev).1 } := rfl

/-- `Sim` for the state part of a live `_fireAndProcessEvent` with a non-text
event: the event goes on both the log and the fired list. -/
theorem sim_fireTrue (C : VCtx W) (w : W) (ev : VEvent) (el : Option NodeRef)
    (ix : Option Nat) (s : VState W) (hev : ev.isText = false) :
    Sim s (fireAndProcessEvent C w ev el ix true s).2 := by
  rw [fireAndProcessEvent_eq]
  refine Sim.trans ?_ (sim_processEventResult _ _ _ _)
  refine ⟨rfl, rfl, ⟨[ev], rfl⟩, ?_, ?_⟩
  · intro h
    refine annOK_mono h ?_
    simp
  · intro h
    show s.validationEvents ++ [ev] =
      List.filter (fun e => !e.isText) (s.firedEvents ++ [ev])
    rw [List.filter_append, ← h]
    simp [List.filter_cons, hev]

theorem sim_fireLive (C : VCtx W) (ev : VEvent) (el : Option NodeRef)
    (ix : Option Nat) (s : VState W) (hev : ev.isText = false) :
    Sim s (fireLive C ev el ix s) := by
  have h := sim_fireTrue C s.validationWalker ev el ix s hev
  rw [fireAndProcessEvent_eq] at h
  rw [fireLive_eq]
  exact Sim.trans h (Sim.of_same rfl rfl rfl rfl rfl)

theorem sim_setAnnIdxS_len (r : NodeRef) (k : AnnKey) (s : VState W) :
    Sim s (setAnnIdxS r k s.validationEvents.length s) := by
  refine ⟨rfl, rfl, ⟨[], by simp [setAnnIdxS]⟩, ?_, id⟩
  intro h
  exact annOK_setAnn h (fun a ha => annIdxBound_setIdx k (Nat.le_refl _) ha)

theorem sim_flushText (C : VCtx W) (curPath : Path) (acc : List String)
    (accNode : Option Nat) (s : VState W) :
    Sim s (flushText C curPath acc accNode s) := by
  unfold flushText
  split
  · exact Sim.refl s
  · refine Sim.trans ?_ (sim_processEventResult _ _ _ _)
    refine ⟨rfl, rfl, ⟨[], by simp⟩, id, ?_⟩
    intro h
    show s.validationEvents =
      List.filter (fun e => !e.isText) (s.firedEvents ++ [VEvent.text (String.join acc)])
    rw [List.filter_append, ← h]
    simp [List.filter_cons, VEvent.isText]

theorem sim_fireAttributeNameEvent (C : VCtx W) (w : W) (p : Path) (i : Nat)
    (an : String) (s : VState W) :
    Sim s (fireAttributeNameEvent C w p i an true s).2.2 := by
  unfold fireAttributeNameEvent
  match hr : C.g.resolveNameFn w an true with
  | none => exact Sim.of_same rfl rfl rfl rfl rfl
  | some en =>
    refine Sim.trans (sim_setPossibleDueToWildcard C (.attr p i) w "attributeName" en.ns en.name s) ?_
    exact sim_fireTrue C w (.attributeName en.ns en.name) (some (.attr p i)) (some 0) _ rfl

theorem sim_fireAttributeEventsLoop (C : VCtx W) (p : Path) (i : Nat)
    (attrs : List (String × String)) (s : VState W) :
    Sim s (fireAttributeEventsLoop C p i attrs s) := by
  induction attrs generalizing i s with
  | nil => exact Sim.refl s
  | cons hd t ih =>
    obtain ⟨an, av⟩ := hd
    unfold fireAttributeEventsLoop
    split
    · exact ih _ _
    · refine Sim.trans ?_ (ih _ _)
      have h1 : Sim s
          { (fireAttributeNameEvent C s.validationWalker p i an true s).2.2 with
            validationWalker := (fireAttributeNameEvent C s.validationWalker p i an true s).2.1 } :=
        Sim.trans (sim_fireAttributeNameEvent C s.validationWalker p i an s)
          (Sim.of_same rfl rfl rfl rfl rfl)
      split
      · exact Sim.trans h1
          (sim_fireLive C (.attributeValue av) (some (.attr p i)) (some 0) _ rfl)
      · exact h1

theorem sim_fireNsEvents (C : VCtx W) (curPath : Path)
    (attrs : List (String × String)) (s : VState W) :
    Sim s (fireNsEvents C curPath attrs s) := by
  induction attrs generalizing s with
  | nil => exact Sim.refl s
  | cons hd t ih =>
    obtain ⟨an, av⟩ := hd
    unfold fireNsEvents
    refine Sim.trans ?_ (ih _)
    split
    · exact sim_fireLive C _ _ _ _ (by rfl)
    · split
      · exact sim_fireLive C _ _ _ _ (by rfl)
      · exact Sim.refl _

/-- `Step` extends `Sim` with the facts that one helper call keeps the entry
counter, and keeps the error list when the grammar accepts everything. -/
structure Step (G : VGrammar W) (s s' : VState W) extends Sim s s' : Prop where
  entered : s'.cycleEntered = s.cycleEntered
  errs : AllAccepting G → s'.errors = s.errors

theorem Step.rfl_step (G : VGrammar W) (s : VState W) : Step G s s :=
  ⟨Sim.refl s, rfl, fun _ => rfl⟩

theorem Step.trans_step {G : VGrammar W} {s t u : VState W} (h1 : Step G s t)
    (h2 : Step G t u) : Step G s u :=
  ⟨h1.toSim.trans h2.toSim, h2.entered.trans h1.entered,
    fun hA => (h2.errs hA).trans (h1.errs hA)⟩

theorem Step.of_same_step {G : VGrammar W} {s s' : VState W}
    (hc : s'.walkerCache = s.walkerCache) (hm : s'.walkerCacheMax = s.walkerCacheMax)
    (hv : s'.validationEvents = s.validationEvents) (hf : s'.firedEvents = s.firedEvents)
    (ha : s'.annots = s.annots) (he : s'.cycleEntered = s.cycleEntered)
    (hr : s'.errors = s.errors) :
    Step G s s' :=
  ⟨Sim.of_same hc hm hv hf ha, he, fun _ => hr⟩

theorem step_fireTrue (C : VCtx W) (w : W) (ev : VEvent) (el : Option NodeRef)
    (ix : Option Nat) (s : VState W) (hev : ev.isText = false) :
    Step C.g s (fireAndProcessEvent C w ev el ix true s).2 := by
  refine ⟨sim_fireTrue C w ev el ix s hev, ?_, ?_⟩
  · rw [fireAndProcessEvent_eq, processEventResult_eq]
  · intro hA
    rw [fireAndProcessEvent_eq, processEventResult_eq]
    simp [hA.1 w ev]

theorem step_fireLive (C : VCtx W) (ev : VEvent) (el : Option NodeRef)
    (ix : Option Nat) (s : VState W) (hev : ev.isText = false) :
    Step C.g s (fireLive C ev el ix s) := by
  refine ⟨sim_fireLive C ev el ix s hev, ?_, ?_⟩
  · rw [fireLive_eq, processEventResult_eq]
  · intro hA
    rw [fireLive_eq, processEventResult_eq]
    simp [hA.1 s.validationWalker ev]

theorem step_setPossibleDueToWildcard (C : VCtx W) (node : NodeRef) (w : W)
    (eventName ns nm : String) (s : VState W) :
    Step C.g s (setPossibleDueToWildcard C node w eventName ns nm s) := by
  refine ⟨sim_setPossibleDueToWildcard C node w eventName ns nm s, ?_, ?_⟩
  · rw [setPossibleDueToWildcard_eq]
  · intro hA
    rw [setPossibleDueToWildcard_eq]

theorem step_setAnnIdxS_len (C : VCtx W) (r : NodeRef) (k : AnnKey) (s : VState W) :
    Step C.g s (setAnnIdxS r k s.validationEvents.length s) :=
  ⟨sim_setAnnIdxS_len r k s, rfl, fun _ => rfl⟩

theorem step_flushText (C : VCtx W) (curPath : Path) (acc : List String)
    (accNode : Option Nat) (s : VState W) :
    Step C.g s (flushText C curPath acc accNode s) := by
  refine ⟨sim_flushText C curPath acc accNode s, ?_, ?_⟩
  · unfold flushText
    split
    · rfl
    · rw [processEventResult_eq]
  · intro hA
    unfold flushText
    split
    · rfl
    · rw [processEventResult_eq]
      simp [hA.1]

theorem step_fireAttributeNameEvent (C : VCtx W) (w : W) (p : Path) (i : Nat)
    (an : String) (s : VState W) :
    Step C.g s (fireAttributeNameEvent C w p i an true s).2.2 := by
  unfold fireAttributeNameEvent
  match hr : C.g.resolveNameFn w an true with
  | none =>
    refine ⟨Sim.of_same rfl rfl rfl rfl rfl, rfl, ?_⟩
    intro hA
    have hsome := hA.2.2 w an true
    rw [hr] at hsome
    simp at hsome
  | some en =>
    exact Step.trans_step
      (step_setPossibleDueToWildcard C (.attr p i) w "attributeName" en.ns en.name s)
      (step_fireTrue C w (.attributeName en.ns en.name) (some (.attr p i)) (some 0) _ rfl)

theorem step_fireAttributeEventsLoop (C : VCtx W) (p : Path) (i : Nat)
    (attrs : List (String × String)) (s : VState W) :
    Step C.g s (fireAttributeEventsLoop C p i attrs s) := by
  induction attrs generalizing i s with
  | nil => exact Step.rfl_step _ s
  | cons hd t ih =>
    obtain ⟨an, av⟩ := hd
    unfold fireAttributeEventsLoop
    split
    · exact ih _ _
    · refine Step.trans_step ?_ (ih _ _)
      have h1 : Step C.g s
          { (fireAttributeNameEvent C s.validationWalker p i an true s).2.2 with
            validationWalker := (fireAttributeNameEvent C s.validationWalker p i an true s).2.1 } :=
        Step.trans_step (step_fireAttributeNameEvent C s.validationWalker p i an s)
          (Step.of_same_step rfl rfl rfl rfl rfl rfl rfl)
      split
      · exact Step.trans_step h1
          (step_fireLive C (.attributeValue av) (some (.attr p i)) (some 0) _ rfl)
      · exact h1

theorem step_fireNsEvents (C : VCtx W) (curPath : Path)
    (attrs : List (String × String)) (s : VState W) :
    Step C.g s (fireNsEvents C curPath attrs s) := by
  induction attrs generalizing s with
  | nil => exact Step.rfl_step _ s
  | cons hd t ih =>
    obtain ⟨an, av⟩ := hd
    unfold fireNsEvents
    refine Step.trans_step ?_ (ih _)
    split
    · exact step_fireLive C _ _ _ _ (by rfl)
    · split
      · exact step_fireLive C _ _ _ _ (by rfl)
      · exact Step.rfl_step _ _

/-! ### Continuation-style composition lemmas

Each lemma extends a `Step` fact from an initial state `s0` over one more
helper application, matching the syntactic shape of the traversal code after
zeta reduction, so that a chain of `refine comp_... ?_` peels a stage body
from the outside in. -/

theorem comp_stack {C : VCtx W} {s0 t : VState W} (v : List ProgressState)
    (h : Step C.g s0 t) : Step C.g s0 { t with validationStack := v } :=
  Step.trans_step h (Step.of_same_step rfl rfl rfl rfl rfl rfl rfl)

theorem comp_stage {C : VCtx W} {s0 t : VState W} (st : Stage)
    (h : Step C.g s0 t) : Step C.g s0 { t with validationStage := st } :=
  Step.trans_step h (Step.of_same_step rfl rfl rfl rfl rfl rfl rfl)

theorem comp_walker {C : VCtx W} {s0 t : VState W} (w : W)
    (h : Step C.g s0 t) : Step C.g s0 { t with validationWalker := w } :=
  Step.trans_step h (Step.of_same_step rfl rfl rfl rfl rfl rfl rfl)

theorem comp_partDone {C : VCtx W} {s0 t : VState W} (d : ℚ)
    (h : Step C.g s0 t) : Step C.g s0 { t with partDone := d } :=
  Step.trans_step h (Step.of_same_step rfl rfl rfl rfl rfl rfl rfl)

theorem comp_nav2 {C : VCtx W} {s0 t : VState W} (a : Option Nat) (p : Path)
    (h : Step C.g s0 t) : Step C.g s0 { t with previousChild := a, curEl := p } :=
  Step.trans_step h (Step.of_same_step rfl rfl rfl rfl rfl rfl rfl)

theorem comp_nav3 {C : VCtx W} {s0 t : VState W} (p : Path) (st : Stage)
    (a : Option Nat) (h : Step C.g s0 t) :
    Step C.g s0 { t with curEl := p, validationStage := st, previousChild := a } :=
  Step.trans_step h (Step.of_same_step rfl rfl rfl rfl rfl rfl rfl)

theorem comp_navStack {C : VCtx W} {s0 t : VState W} (a : Option Nat)
    (v : List ProgressState) (p : Path) (h : Step C.g s0 t) :
    Step C.g s0 { t with previousChild := a, validationStack := v, curEl := p } :=
  Step.trans_step h (Step.of_same_step rfl rfl rfl rfl rfl rfl rfl)

theorem comp_fireLive {C : VCtx W} {ev : VEvent} (el : Option NodeRef)
    (ix : Option Nat) (hev : ev.isText = false) {s0 t : VState W}
    (h : Step C.g s0 t) : Step C.g s0 (fireLive C ev el ix t) :=
  Step.trans_step h (step_fireLive C ev el ix t hev)

theorem comp_fireNs {C : VCtx W} (p : Path) (attrs : List (String × String))
    {s0 t : VState W} (h : Step C.g s0 t) :
    Step C.g s0 (fireNsEvents C p attrs t) :=
  Step.trans_step h (step_fireNsEvents C p attrs t)

theorem comp_attrLoop {C : VCtx W} (p : Path) (i : Nat)
    (attrs : List (String × String)) {s0 t : VState W} (h : Step C.g s0 t) :
    Step C.g s0 (fireAttributeEventsLoop C p i attrs t) :=
  Step.trans_step h (step_fireAttributeEventsLoop C p i attrs t)

theorem comp_flushText {C : VCtx W} (p : Path) (acc : List String)
    (accNode : Option Nat) {s0 t : VState W} (h : Step C.g s0 t) :
    Step C.g s0 (flushText C p acc accNode t) :=
  Step.trans_step h (step_flushText C p acc accNode t)

theorem comp_setPossible {C : VCtx W} (nd : NodeRef) (w : W)
    (eventName ns nm : String) {s0 t : VState W} (h : Step C.g s0 t) :
    Step C.g s0 (setPossibleDueToWildcard C nd w eventName ns nm t) :=
  Step.trans_step h (step_setPossibleDueToWildcard C nd w eventName ns nm t)

theorem comp_setAnnLen {C : VCtx W} (r : NodeRef) (k : AnnKey) {s0 t : VState W}
    (h : Step C.g s0 t) :
    Step C.g s0 (setAnnIdxS r k t.validationEvents.length t) :=
  Step.trans_step h (step_setAnnIdxS_len C r k t)

theorem comp_per {C : VCtx W} {errs0 : List VError} (nd : Option NodeRef)
    (ix : Option Nat) (hbad : AllAccepting C.g → errs0 = []) {s0 t : VState W}
    (h : Step C.g s0 t) : Step C.g s0 (processEventResult errs0 nd ix t) := by
  refine Step.trans_step h ⟨sim_processEventResult _ _ _ _, ?_, ?_⟩
  · rw [processEventResult_eq]
  · intro hA
    rw [processEventResult_eq, hbad hA]
    simp

theorem comp_stopWithSome {C : VCtx W} (st : WState) {s0 t : VState W}
    (h : Step C.g s0 t) : Step C.g s0 (stopWith (some st) t) := by
  refine Step.trans_step h ⟨?_, ?_, ?_⟩
  · show Sim t (setWorkingState st t.partDone { t with timeoutActive := false })
    rw [setWorkingState_eq]
    exact Sim.of_same rfl rfl rfl rfl rfl
  · show (setWorkingState st t.partDone { t with timeoutActive := false }).cycleEntered = _
    rw [setWorkingState_eq]
  · intro _
    show (setWorkingState st t.partDone { t with timeoutActive := false }).errors = _
    rw [setWorkingState_eq]

theorem comp_setWS {C : VCtx W} (st : WState) (nd : ℚ) {s0 t : VState W}
    (h : Step C.g s0 t) : Step C.g s0 (setWorkingState st nd t) := by
  refine Step.trans_step h ⟨sim_setWorkingState st nd t, ?_, ?_⟩
  · rw [setWorkingState_eq]
  · intro _
    rw [setWorkingState_eq]

/-- One stage of `_cycle`, relative to the state at its entry: the `Sim`
facts, the decrement of the entry counter, and error preservation under an
all-accepting grammar. -/
def StepDec (G : VGrammar W) (s s' : VState W) : Prop :=
  Sim s s' ∧ s'.cycleEntered = s.cycleEntered - 1 ∧
    (AllAccepting G → s'.errors = s.errors)

theorem stepDec_of_step {G : VGrammar W} {s t : VState W} (h : Step G s t) :
    StepDec G s { t with cycleEntered := t.cycleEntered - 1 } := by
  refine ⟨Sim.trans h.toSim (Sim.of_same rfl rfl rfl rfl rfl), ?_, fun hA => h.errs hA⟩
  show t.cycleEntered - 1 = s.cycleEntered - 1
  rw [h.entered]

theorem stepDec_of_step_stage {G : VGrammar W} {s t : VState W} (st : Stage)
    (h : Step G s t) :
    StepDec G s { t with validationStage := st,
                         cycleEntered := t.cycleEntered - 1 } := by
  refine ⟨Sim.trans h.toSim (Sim.of_same rfl rfl rfl rfl rfl), ?_, fun hA => h.errs hA⟩
  show t.cycleEntered - 1 = s.cycleEntered - 1
  rw [h.entered]

theorem stepDec_comp {G : VGrammar W} {s t u : VState W} (h1 : Step G s t)
    (h2 : StepDec G t u) : StepDec G s u := by
  obtain ⟨hsim, hent, herr⟩ := h2
  refine ⟨Sim.trans h1.toSim hsim, ?_, fun hA => (herr hA).trans (h1.errs hA)⟩
  rw [hent, h1.entered]

/-! ### Working-state projections of the helpers -/

@[simp] theorem ws_processEventResult (e : List VError) (n : Option NodeRef)
    (i : Option Nat) (s : VState W) :
    (processEventResult e n i s).workingState = s.workingState := by
  rw [processEventResult_eq]

@[simp] theorem ws_fireLive (C : VCtx W) (ev : VEvent) (el : Option NodeRef)
    (ix : Option Nat) (s : VState W) :
    (fireLive C ev el ix s).workingState = s.workingState := by
  rw [fireLive_eq, processEventResult_eq]

@[simp] theorem ws_setPossible (C : VCtx W) (nd : NodeRef) (w : W)
    (eventName ns nm : String) (s : VState W) :
    (setPossibleDueToWildcard C nd w eventName ns nm s).workingState = s.workingState := by
  rw [setPossibleDueToWildcard_eq]

@[simp] theorem ws_setAnnIdxS (r : NodeRef) (k : AnnKey) (v : Nat) (s : VState W) :
    (setAnnIdxS r k v s).workingState = s.workingState := rfl

@[simp] theorem ws_flushText (C : VCtx W) (p : Path) (acc : List String)
    (accNode : Option Nat) (s : VState W) :
    (flushText C p acc accNode s).workingState = s.workingState := by
  unfold flushText
  split
  · rfl
  · rw [processEventResult_eq]

@[simp] theorem ws_fan (C : VCtx W) (w : W) (p : Path) (i : Nat) (an : String)
    (live : Bool) (s : VState W) :
    (fireAttributeNameEvent C w p i an live s).2.2.workingState = s.workingState := by
  unfold fireAttributeNameEvent
  split
  · rfl
  · dsimp only
    rw [fireAndProcessEvent_eq, processEventResult_eq, setPossibleDueToWildcard_eq]

@[simp] theorem ws_attrLoop (C : VCtx W) (p : Path) (i : Nat)
    (attrs : List (String × String)) (s : VState W) :
    (fireAttributeEventsLoop C p i attrs s).workingState = s.workingState := by
  induction attrs generalizing i s with
  | nil => rfl
  | cons hd t ih =>
    obtain ⟨an, av⟩ := hd
    unfold fireAttributeEventsLoop
    split
    · rw [ih]
    · rw [ih]
      split
      · rw [ws_fireLive]
        exact ws_fan C s.validationWalker p i an true s
      · exact ws_fan C s.validationWalker p i an true s

@[simp] theorem ws_fireNs (C : VCtx W) (p : Path)
    (attrs : List (String × String)) (s : VState W) :
    (fireNsEvents C p attrs s).workingState = s.workingState := by
  induction attrs generalizing s with
  | nil => rfl
  | cons hd t ih =>
    obtain ⟨an, av⟩ := hd
    unfold fireNsEvents
    rw [ih]
    split
    · rw [ws_fireLive]
    · split
      · rw [ws_fireLive]
      · rfl

@[simp] theorem ws_setWorkingState (st : WState) (nd : ℚ) (s : VState W) :
    (setWorkingState st nd s).workingState = st := by
  rw [setWorkingState_eq]

@[simp] theorem ws_stopWithSome (st : WState) (s : VState W) :
    (stopWith (some st) s).workingState = st := by
  show (setWorkingState st s.partDone { s with timeoutActive := false }).workingState = st
  rw [ws_setWorkingState]

@[simp] theorem errors_setAnnIdxS (r : NodeRef) (k : AnnKey) (v : Nat) (s : VState W) :
    (setAnnIdxS r k v s).errors = s.errors := rfl

@[simp] theorem errors_setWorkingState (st : WState) (nd : ℚ) (s : VState W) :
    (setWorkingState st nd s).errors = s.errors := by
  rw [setWorkingState_eq]

@[simp] theorem errors_stopWithSome (st : WState) (s : VState W) :
    (stopWith (some st) s).errors = s.errors := by
  show (setWorkingState st s.partDone { s with timeoutActive := false }).errors = s.errors
  rw [errors_setWorkingState]

/-! ### Stage-level lemmas -/

theorem runStartTag_spec (C : VCtx W) (q : ℚ) {s s' : VState W} {b : Bool}
    (h : runStartTag C q s = .ok (s', b)) :
    b = true ∧ StepDec C.g s s' ∧
      (s'.workingState = s.workingState ∨ s'.workingState = .working) := by
  unfold runStartTag at h
  split at h
  · simp at h
  next x i p hcur =>
    dsimp only at h
    split at h
    next tag attrs children hn =>
      split at h
      next hres =>
        simp only [Except.ok.injEq, Prod.mk.injEq] at h
        obtain ⟨hX, hb⟩ := h
        subst hX
        subst hb
        refine ⟨rfl, ?_, Or.inl (by simp)⟩
        refine stepDec_of_step ?_
        refine comp_setAnnLen _ _ ?_
        refine comp_stage _ ?_
        refine comp_fireLive _ _ (by rfl) ?_
        refine comp_setAnnLen _ _ ?_
        refine comp_attrLoop _ _ _ ?_
        refine comp_setAnnLen _ _ ?_
        refine comp_fireLive _ _ (by rfl) ?_
        refine comp_setPossible _ _ _ _ _ ?_
        refine comp_per _ _ ?_ ?_
        · intro hA
          have hsome := hA.2.2 (fireNsEvents C (i :: p) attrs
            (fireLive C .enterContext (some (.tree (i :: p))) (some 0)
              { s with validationStack := ⟨s.partDone, q⟩ :: s.validationStack })).validationWalker
            tag false
          rw [hres] at hsome
          simp at hsome
        · refine comp_fireNs _ _ ?_
          refine comp_fireLive _ _ (by rfl) ?_
          exact comp_stack _ (Step.rfl_step _ _)
      next en hres =>
        simp only [Except.ok.injEq, Prod.mk.injEq] at h
        obtain ⟨hX, hb⟩ := h
        subst hX
        subst hb
        refine ⟨rfl, ?_, Or.inl (by simp)⟩
        refine stepDec_of_step ?_
        refine comp_setAnnLen _ _ ?_
        refine comp_stage _ ?_
        refine comp_fireLive _ _ (by rfl) ?_
        refine comp_setAnnLen _ _ ?_
        refine comp_attrLoop _ _ _ ?_
        refine comp_setAnnLen _ _ ?_
        refine comp_fireLive _ _ (by rfl) ?_
        refine comp_setPossible _ _ _ _ _ ?_
        refine comp_fireNs _ _ ?_
        refine comp_fireLive _ _ (by rfl) ?_
        exact comp_stack _ (Step.rfl_step _ _)
    · simp at h

theorem runEndTag_spec (C : VCtx W) (q : ℚ) {s s' : VState W} {b : Bool}
    (h : runEndTag C q s = .ok (s', b)) :
    StepDec C.g s s' ∧
      (b = true → s'.workingState = .working) ∧
      (b = false →
        s'.workingState = (if s'.errors = [] then .valid else .invalid)) := by
  unfold runEndTag at h
  split at h
  · -- the current element is the root: finalize and stop
    dsimp only at h
    simp only [Except.ok.injEq, Prod.mk.injEq] at h
    obtain ⟨hX, hb⟩ := h
    subst hX
    subst hb
    refine ⟨?_, by simp, ?_⟩
    · refine stepDec_of_step ?_
      refine comp_stopWithSome _ ?_
      refine comp_partDone _ ?_
      refine comp_setAnnLen _ _ ?_
      refine comp_per _ _ (fun hA => hA.2.1 _) (Step.rfl_step _ _)
    · intro _
      simp only [ws_stopWithSome, errors_stopWithSome, errors_setAnnIdxS]
      by_cases hc : (processEventResult (C.g.endFn s.validationWalker)
          (some (.tree [])) (some C.root.children.length) s).errors = [] <;>
        simp [hc, List.length_pos]
  next x i p hcur =>
    dsimp only at h
    split at h
    next tag attrs2 ch hn =>
      split at h
      · -- the parent is the root: no frame folding
        simp only [Except.ok.injEq, Prod.mk.injEq] at h
        obtain ⟨hX, hb⟩ := h
        subst hX
        subst hb
        refine ⟨?_, ?_, by simp⟩
        · refine stepDec_of_step_stage _ ?_
          refine comp_setAnnLen _ _ ?_
          refine comp_setWS _ _ ?_
          refine comp_nav2 _ _ ?_
          refine comp_fireLive _ _ (by rfl) ?_
          refine comp_fireLive _ _ (by rfl) ?_
          exact Step.rfl_step _ _
        · intro _
          simp
      next ph pt =>
        split at h
        next f restStack hstack =>
          simp only [Except.ok.injEq, Prod.mk.injEq] at h
          obtain ⟨hX, hb⟩ := h
          subst hX
          subst hb
          refine ⟨?_, ?_, by simp⟩
          · refine stepDec_of_step_stage _ ?_
            refine comp_setAnnLen _ _ ?_
            refine comp_setWS _ _ ?_
            refine comp_navStack _ _ _ ?_
            refine comp_fireLive _ _ (by rfl) ?_
            refine comp_fireLive _ _ (by rfl) ?_
            exact Step.rfl_step _ _
          · intro _
            simp
        next hstack =>
          simp at h
    · simp at h

theorem contentsScan_spec (C : VCtx W) (q : ℚ) (curPath : Path) (cec : Nat)
    {rest : List DomNode} {j : Nat} {acc : List String} {accNode : Option Nat}
    {s s' : VState W} {b : Bool}
    (h : contentsScan C q curPath cec j rest acc accNode s = .ok (s', b)) :
    StepDec C.g s s' ∧
      (b = true → s'.workingState = s.workingState ∨ s'.workingState = .working) ∧
      (b = false →
        s'.workingState = (if s'.errors = [] then .valid else .invalid)) := by
  induction rest generalizing j acc accNode s with
  | nil =>
    unfold contentsScan at h
    dsimp only at h
    obtain ⟨h1, h2, h3⟩ := runEndTag_spec C q h
    have hpre : Step C.g s { flushText C curPath acc accNode s with
        validationStage := Stage.endTag } :=
      comp_stage _ (comp_flushText _ _ _ (Step.rfl_step _ _))
    refine ⟨stepDec_comp hpre h1, fun hb => Or.inr (h2 hb), h3⟩
  | cons n rest ih =>
    cases n with
    | text d =>
      unfold contentsScan at h
      exact ih h
    | comment d =>
      unfold contentsScan at h
      exact ih h
    | element tag attrs ch =>
      unfold contentsScan at h
      dsimp only at h
      obtain ⟨hb, hsd, hws⟩ := runStartTag_spec C _ h
      subst hb
      have hpre : Step C.g s { flushText C curPath acc accNode s with
          curEl := j :: curPath, validationStage := Stage.startTag,
          previousChild := none } :=
        comp_nav3 _ _ _ (comp_flushText _ _ _ (Step.rfl_step _ _))
      refine ⟨stepDec_comp hpre hsd, ?_, by simp⟩
      intro _
      rcases hws with hw | hw
      · exact Or.inl (by rw [hw]; simp)
      · exact Or.inr hw

theorem runContents_spec (C : VCtx W) (q : ℚ) {s s' : VState W} {b : Bool}
    (h : runContents C q s = .ok (s', b)) :
    StepDec C.g s s' ∧
      (b = true → s'.workingState = s.workingState ∨ s'.workingState = .working) ∧
      (b = false →
        s'.workingState = (if s'.errors = [] then .valid else .invalid)) := by
  unfold runContents at h
  split at h
  · simp at h
  next cur hn =>
    exact contentsScan_spec C q s.curEl cur.childElementCount h

theorem cycle_spec (C : VCtx W) {s s' : VState W} {b : Bool}
    (h : cycle C s = .ok (s', b)) :
    s.cycleEntered = 0 ∧ Sim s s' ∧ s'.cycleEntered = 0 ∧
      (AllAccepting C.g → s'.errors = s.errors) ∧
      (b = true → s'.workingState = s.workingState ∨ s'.workingState = .working) ∧
      (b = false →
        s'.workingState = (if s'.errors = [] then .valid else .invalid)) := by
  unfold cycle at h
  dsimp only at h
  split at h
  · simp at h
  · split at h
    · simp at h
    · split at h
      · simp at h
      next top stackRest hstack =>
        have hz : s.cycleEntered = 0 := by
          rename_i hgt hlt
          simp at hgt hlt
          omega
        have hpre : ∀ u bb, StepDec C.g
            { s with restarting := false, cycleEntered := s.cycleEntered + 1 } u →
            (bb = true → u.workingState =
              ({ s with restarting := false, cycleEntered := s.cycleEntered + 1 } : VState W).workingState ∨
              u.workingState = .working) →
            (bb = false → u.workingState = (if u.errors = [] then .valid else .invalid)) →
            u = s' → bb = b →
            s.cycleEntered = 0 ∧ Sim s s' ∧ s'.cycleEntered = 0 ∧
              (AllAccepting C.g → s'.errors = s.errors) ∧
              (b = true → s'.workingState = s.workingState ∨
                s'.workingState = .working) ∧
              (b = false →
                s'.workingState = (if s'.errors = [] then .valid else .invalid)) := by
          intro u bb hsd hwt hwf hu hbb
          subst hu
          subst hbb
          obtain ⟨hsim, hent, herr⟩ := hsd
          refine ⟨hz, ?_, ?_, ?_, hwt, hwf⟩
          · refine Sim.trans ?_ hsim
            exact Sim.of_same rfl rfl rfl rfl rfl
          · rw [hent]
            show s.cycleEntered + 1 - 1 = 0
            omega
          · intro hA
            exact herr hA
        split at h
        · obtain ⟨hb, hsd, hws⟩ := runStartTag_spec C _ h
          exact hpre _ _ hsd (fun _ => hws) (fun hf => absurd (hf ▸ hb) (by decide)) rfl rfl
        · obtain ⟨hsd, hwt, hwf⟩ := runContents_spec C _ h
          exact hpre _ _ hsd hwt hwf rfl rfl
        · obtain ⟨hsd, hwt, hwf⟩ := runEndTag_spec C _ h
          exact hpre _ _ hsd (fun hb => Or.inr (hwt hb)) hwf rfl rfl

theorem run_spec (C : VCtx W) (fuel : Nat) {s s' : VState W} {b : Bool}
    (h : run C fuel s = .ok (s', b)) :
    Sim s s' ∧ (s.cycleEntered = 0 → s'.cycleEntered = 0) ∧
      (AllAccepting C.g → s'.errors = s.errors) ∧
      (b = false →
        s'.workingState = (if s'.errors = [] then .valid else .invalid)) := by
  induction fuel generalizing s with
  | zero =>
    unfold run at h
    simp only [Except.ok.injEq, Prod.mk.injEq] at h
    obtain ⟨hs, hb⟩ := h
    subst hs
    subst hb
    exact ⟨Sim.refl _, id, fun _ => rfl, by simp⟩
  | succ n ih =>
    unfold run at h
    cases hc : cycle C s with
    | error e =>
      rw [hc] at h
      simp at h
    | ok r =>
      obtain ⟨r1, rb⟩ := r
      rw [hc] at h
      obtain ⟨hz, hsim, hent, herr, hwt, hwf⟩ := cycle_spec C hc
      cases rb with
      | true =>
        simp only [if_true] at h
        obtain ⟨ihsim, ihent, iherr, ihwf⟩ := ih h
        refine ⟨Sim.trans hsim ihsim, ?_, ?_, ihwf⟩
        · intro _
          exact ihent hent
        · intro hA
          exact (iherr hA).trans (herr hA)
      | false =>
        simp only [Bool.false_eq_true, if_false, Except.ok.injEq, Prod.mk.injEq] at h
        obtain ⟨hs, hb⟩ := h
        subst hs
        subst hb
        exact ⟨hsim, fun _ => hent, herr, fun _ => hwf rfl⟩

theorem unitGrammar_accepting : AllAccepting unitGrammar :=
  ⟨fun _ _ => rfl, fun _ => rfl, fun _ _ _ => rfl⟩

/-! ### Query-path lemmas: readyWalker, validateUpTo, walkerFromState -/

theorem getAnn_bound {st : AnnStore} {n : Nat} (h : AnnOK st n) (r : NodeRef) :
    annIdxBound (getAnn st r) n = true := by
  induction st with
  | nil => exact annIdxBound_empty n
  | cons hd tl ih =>
    obtain ⟨r', a⟩ := hd
    show annIdxBound (if r' = r then a else getAnn tl r) n = true
    split
    · exact h (r', a) (List.mem_cons_self _ _)
    · exact ih (fun p hp => h p (List.mem_cons_of_mem _ hp))

theorem annOK_idx_le {st : AnnStore} {n : Nat} (h : AnnOK st n) {r : NodeRef}
    {k : AnnKey} {v : Nat} (hv : getAnnIdx st r k = some v) : v ≤ n := by
  have hb := getAnn_bound h r
  unfold getAnnIdx at hv
  simp only [annIdxBound, Bool.and_eq_true] at hb
  obtain ⟨⟨⟨h1, h2⟩, h3⟩, h4⟩ := hb
  cases k with
  | after =>
    simp only [NodeAnn.idx] at hv
    rw [hv] at h1
    simpa [obnd] using h1
  | afterStart =>
    simp only [NodeAnn.idx] at hv
    rw [hv] at h2
    simpa [obnd] using h2
  | beforeAttributes =>
    simp only [NodeAnn.idx] at hv
    rw [hv] at h3
    simpa [obnd] using h3
  | afterAttributes =>
    simp only [NodeAnn.idx] at hv
    rw [hv] at h4
    simpa [obnd] using h4

/-- The state `readyWalker` returns is either untouched or the input with one
snapshot pushed on the cache. -/
theorem readyWalker_state {C : VCtx W} {cfg : VConfig} {idx? : Option Nat}
    {t : VState W} {w : W} {u : VState W}
    (h : readyWalker C cfg idx? t = .ok (w, u)) :
    u = t ∨ ∃ j : Nat, u = { t with walkerCache := (j, w) :: t.walkerCache, walkerCacheMax := max (j : Int) t.walkerCacheMax } := by
  unfold readyWalker at h
  cases idx? with
  | none => simp at h
  | some idx =>
    dsimp only at h
    cases hl : lookupCache t.walkerCache idx with
    | some w' =>
      rw [hl] at h
      simp only [Except.ok.injEq, Prod.mk.injEq] at h
      exact Or.inl h.2.symm
    | none =>
      rw [hl] at h
      split at h
      · rename_i hbad
        exact absurd hbad (by simp)
      · split at h
        · simp only [Except.ok.injEq, Prod.mk.injEq] at h
          obtain ⟨hw, hu⟩ := h
          exact Or.inr ⟨idx, by rw [← hu, ← hw]⟩
        · simp only [Except.ok.injEq, Prod.mk.injEq] at h
          exact Or.inl h.2.symm

theorem readyWalker_proj {C : VCtx W} {cfg : VConfig} {idx? : Option Nat}
    {t : VState W} {w : W} {u : VState W}
    (h : readyWalker C cfg idx? t = .ok (w, u)) :
    u.annots = t.annots ∧ u.validationEvents = t.validationEvents ∧
    u.errors = t.errors ∧ u.validationWalker = t.validationWalker ∧
    u.firedEvents = t.firedEvents ∧ u.notices = t.notices := by
  rcases readyWalker_state h with rfl | ⟨j, rfl⟩ <;> exact ⟨rfl, rfl, rfl, rfl, rfl, rfl⟩

/-- Re-issuing the same `readyWalker` query on any state that carries the
cache produced by the first query and an event log extending the first
state's log (the queried index staying inside the original log) returns the
same walker and leaves the state untouched: either the first query cached
the snapshot and the second hits it, or neither crosses the gap and the
second recomputes the identical replay. -/
theorem readyWalker_shift {C : VCtx W} {cfg : VConfig} {idx : Nat}
    {t : VState W} {w : W} {u : VState W}
    (h : readyWalker C cfg (some idx) t = .ok (w, u))
    (hidx : idx ≤ t.validationEvents.length)
    (v : VState W) (hcache : v.walkerCache = u.walkerCache)
    (hmax : v.walkerCacheMax = u.walkerCacheMax)
    (hlog : ∃ ext, v.validationEvents = t.validationEvents ++ ext) :
    readyWalker C cfg (some idx) v = .ok (w, v) := by
  obtain ⟨ext, hext⟩ := hlog
  unfold readyWalker at h ⊢
  dsimp only at h ⊢
  cases hl : lookupCache t.walkerCache idx with
  | some w' =>
    rw [hl] at h
    simp only [Except.ok.injEq, Prod.mk.injEq] at h
    obtain ⟨hw, hu⟩ := h
    have hlv : lookupCache v.walkerCache idx = some w' := by
      rw [hcache, ← hu]
      exact hl
    rw [hlv, hw]
  | none =>
    rw [hl] at h
    split at h
    · rename_i hbad
      exact absurd hbad (by simp)
    · split at h
      · rename_i hcond
        simp only [Except.ok.injEq, Prod.mk.injEq] at h
        obtain ⟨hw, hu⟩ := h
        have hlv : lookupCache v.walkerCache idx = some w := by
          rw [hcache, ← hu]
          show lookupCache ((idx, _) :: t.walkerCache) idx = some w
          simp [lookupCache, hw]
        rw [hlv]
      · rename_i hcond
        simp only [Except.ok.injEq, Prod.mk.injEq] at h
        obtain ⟨hw, hu⟩ := h
        have hvc : v.walkerCache = t.walkerCache := by rw [hcache, ← hu]
        have hvm : v.walkerCacheMax = t.walkerCacheMax := by rw [hmax, ← hu]
        have htk : v.validationEvents.take idx = t.validationEvents.take idx := by
          rw [hext, List.take_append_of_le_length hidx]
        have hlv : lookupCache v.walkerCache idx = none := by rw [hvc]; exact hl
        rw [hlv, hvc, hvm, htk, if_neg hcond, hw]

/-- The catch-up loop only ever stops with the awaited annotation present,
and every state change along it is a traversal-cycle change. -/
theorem upToLoop_spec {C : VCtx W} {r : NodeRef} {k : AnnKey} {fuel : Nat}
    {s t : VState W} (h : upToLoop C r k fuel s = .ok t) :
    Sim s t ∧ (getAnnIdx t.annots r k).isSome = true := by
  induction fuel generalizing s with
  | zero =>
    unfold upToLoop at h
    split at h
    · rename_i hc
      simp only [Except.ok.injEq] at h
      subst h
      exact ⟨Sim.refl _, hc⟩
    · exact absurd h (by simp)
  | succ n ih =>
    unfold upToLoop at h
    split at h
    · rename_i hc
      simp only [Except.ok.injEq] at h
      subst h
      exact ⟨Sim.refl _, hc⟩
    · cases hc : cycle C s with
      | error e => rw [hc] at h; exact absurd h (by simp)
      | ok p =>
        obtain ⟨p1, pb⟩ := p
        rw [hc] at h
        obtain ⟨hsim, hpres⟩ := ih h
        exact ⟨Sim.trans (cycle_spec C hc).2.1 hsim, hpres⟩

/-- `_validateUpTo` on success: the guard held, the target resolved, every
state change was a traversal-cycle change, and the awaited annotation is
present afterwards. -/
theorem validateUpTo_spec {C : VCtx W} {fuel : Nat} {c : NodeRef} {i : Int}
    {a : Bool} {s t : VState W} (h : validateUpTo C fuel c i a s = .ok t) :
    Sim s t ∧
    attrGuard C.root c i a
      "trying to validate after attributes but before the end of the start tag on a node which is not an element node" = .ok () ∧
    ∃ tgt, upToTarget C.root c i a = .ok tgt ∧
      ∀ rk : NodeRef × AnnKey, tgt = some rk →
        (getAnnIdx t.annots rk.1 rk.2).isSome = true := by
  unfold validateUpTo at h
  split at h
  · exact absurd h (by simp)
  · rename_i u hguard
    split at h
    · exact absurd h (by simp)
    · rename_i htgt
      simp only [Except.ok.injEq] at h
      subst h
      exact ⟨Sim.refl _, by cases u; exact hguard,
        none, htgt, fun rk hrk => by cases hrk⟩
    · rename_i rk htgt
      obtain ⟨hsim, hpres⟩ := upToLoop_spec h
      refine ⟨hsim, by cases u; exact hguard, some rk, htgt, ?_⟩
      intro rk' hrk'
      injection hrk' with hrkeq
      rw [← hrkeq]
      exact hpres

/-- If the awaited annotation is already present (or no validation is
needed), `_validateUpTo` returns its input state unchanged. -/
theorem validateUpTo_noop {C : VCtx W} (fuel : Nat) {c : NodeRef} {i : Int}
    {a : Bool} (s : VState W)
    (hguard : attrGuard C.root c i a
      "trying to validate after attributes but before the end of the start tag on a node which is not an element node" = .ok ())
    {tgt : Option (NodeRef × AnnKey)}
    (htgt : upToTarget C.root c i a = .ok tgt)
    (hpres : ∀ rk : NodeRef × AnnKey, tgt = some rk →
      (getAnnIdx s.annots rk.1 rk.2).isSome = true) :
    validateUpTo C fuel c i a s = .ok s := by
  unfold validateUpTo
  rw [hguard, htgt]
  cases tgt with
  | none => rfl
  | some rk =>
    have hp := hpres rk rfl
    show upToLoop C rk.1 rk.2 fuel s = .ok s
    cases fuel with
    | zero =>
      unfold upToLoop
      rw [if_pos hp]
    | succ n =>
      unfold upToLoop
      rw [if_pos hp]

/-- For a tree (non-attribute) container, `_getWalkerAt`'s resolution step
can only touch the walker cache: errors, event log, annotations, walker and
fired events are returned unchanged. -/
theorem walkerFromState_state {C : VCtx W} {cfg : VConfig} {q : Path} {i : Int}
    {a : Bool} {t : VState W} {w : W} {u : VState W}
    (h : walkerFromState C cfg (.tree q) i a t = .ok (w, u)) :
    u.annots = t.annots ∧ u.validationEvents = t.validationEvents ∧
    u.errors = t.errors ∧ u.validationWalker = t.validationWalker ∧
    u.firedEvents = t.firedEvents := by
  unfold walkerFromState at h
  split at h
  · split at h <;>
      (simp only [Except.ok.injEq, Prod.mk.injEq] at h
       obtain ⟨hw, hu⟩ := h
       subst hu
       exact ⟨rfl, rfl, rfl, rfl, rfl⟩)
  · dsimp only at h
    cases hn : getNode C.root q with
    | none => rw [hn] at h; exact absurd h (by simp)
    | some node =>
      rw [hn] at h
      cases node with
      | text d =>
        cases q with
        | nil => exact absurd h (by simp)
        | cons j p =>
          dsimp only at h
          cases hp : getNode C.root p with
          | none => rw [hp] at h; exact absurd h (by simp)
          | some parent =>
            rw [hp] at h
            dsimp only at h
            cases hrw : readyWalker C cfg
                (match prevElemIdx parent.children j with
                  | some j' => getAnnIdx t.annots (.tree (j' :: p)) .after
                  | none => getAnnIdx t.annots (.tree p) .afterStart) t with
            | error e => rw [hrw] at h; exact absurd h (by simp)
            | ok r =>
              obtain ⟨r1, r2⟩ := r
              rw [hrw] at h
              obtain ⟨h1, h2, h3, h4, h5, h6⟩ := readyWalker_proj hrw
              split at h
              · exact absurd h (by simp)
              · rename_i rr hrr
                injection hrr with hrr2
                subst hrr2
                split at h <;>
                  (simp only [Except.ok.injEq, Prod.mk.injEq] at h
                   obtain ⟨hw, hu⟩ := h
                   subst hu
                   exact ⟨h1, h2, h3, h4, h5⟩)
      | comment d => exact absurd h (by simp)
      | element tag attrs ch =>
        dsimp only at h
        split at h
        · -- attributes flag set
          split at h
          · exact absurd h (by simp)
          · obtain ⟨h1, h2, h3, h4, h5, h6⟩ := readyWalker_proj h
            exact ⟨h1, h2, h3, h4, h5⟩
        · cases hrw : readyWalker C cfg
              (match
                  (match (if i < 0 then none else
                      (DomNode.element tag attrs ch).children.get? i.toNat) with
                    | none => lastElemIdx (DomNode.element tag attrs ch).children
                    | some _ =>
                      prevElemIdx (DomNode.element tag attrs ch).children i.toNat) with
                | some j' => getAnnIdx t.annots (.tree (j' :: q)) .after
                | none => getAnnIdx t.annots (.tree q) .afterStart) t with
          | error e => rw [hrw] at h; exact absurd h (by simp)
          | ok r =>
            obtain ⟨r1, r2⟩ := r
            rw [hrw] at h
            obtain ⟨h1, h2, h3, h4, h5, h6⟩ := readyWalker_proj hrw
            split at h
            · exact absurd h (by simp)
            · rename_i rr hrr
              injection hrr with hrr2
              subst hrr2
              split at h
              · -- i < 0 : childNodes[index] does not exist
                split at h
                · rename_i hdead
                  exact absurd hdead (by simp)
                · simp only [Except.ok.injEq, Prod.mk.injEq] at h
                  obtain ⟨hw, hu⟩ := h
                  subst hu
                  exact ⟨h1, h2, h3, h4, h5⟩
              · split at h
                · -- a text node sits just before the location
                  cases hg : (DomNode.element tag attrs ch).children.get? (i - 1).toNat with
                  | none =>
                    rw [hg] at h
                    simp only [Except.ok.injEq, Prod.mk.injEq] at h
                    obtain ⟨hw, hu⟩ := h
                    subst hu
                    exact ⟨h1, h2, h3, h4, h5⟩
                  | some nd =>
                    rw [hg] at h
                    cases nd with
                    | text d2 =>
                      dsimp only at h
                      by_cases hpv : (match (DomNode.element tag attrs ch).children.get? i.toNat with
                          | none => lastElemIdx (DomNode.element tag attrs ch).children
                          | some val => prevElemIdx (DomNode.element tag attrs ch).children i.toNat) =
                          some (i - 1).toNat
                      · rw [if_pos hpv] at h
                        simp only [Except.ok.injEq, Prod.mk.injEq] at h
                        obtain ⟨hw, hu⟩ := h
                        subst hu
                        exact ⟨h1, h2, h3, h4, h5⟩
                      · rw [if_neg hpv] at h
                        simp only [Except.ok.injEq, Prod.mk.injEq] at h
                        obtain ⟨hw, hu⟩ := h
                        subst hu
                        exact ⟨h1, h2, h3, h4, h5⟩
                    | element tag2 attrs2 ch2 =>
                      dsimp only at h
                      simp only [Except.ok.injEq, Prod.mk.injEq] at h
                      obtain ⟨hw, hu⟩ := h
                      subst hu
                      exact ⟨h1, h2, h3, h4, h5⟩
                    | comment d2 =>
                      dsimp only at h
                      simp only [Except.ok.injEq, Prod.mk.injEq] at h
                      obtain ⟨hw, hu⟩ := h
                      subst hu
                      exact ⟨h1, h2, h3, h4, h5⟩
                · simp only [Except.ok.injEq, Prod.mk.injEq] at h
                  obtain ⟨hw, hu⟩ := h
                  subst hu
                  exact ⟨h1, h2, h3, h4, h5⟩

/-- The tree-container resolution step of `_getWalkerAt` is a fixed point:
re-issuing it on its own output state returns the same walker and leaves the
state untouched (the only state change it can make is inserting a cache
snapshot, and the repeat run either hits that snapshot or recomputes the
identical replay below the gap). -/
theorem walkerFromState_fix {C : VCtx W} {cfg : VConfig} {q : Path} {i : Int}
    {a : Bool} {t : VState W} {w1 : W} {s1 : VState W}
    (hA : AnnOK t.annots t.validationEvents.length)
    (h : walkerFromState C cfg (.tree q) i a t = .ok (w1, s1)) :
    walkerFromState C cfg (.tree q) i a s1 = .ok (w1, s1) := by
  unfold walkerFromState at h
  split at h
  · rename_i hroot
    split at h
    · rename_i hi
      simp only [Except.ok.injEq, Prod.mk.injEq] at h
      obtain ⟨hw, hu⟩ := h
      subst hu
      unfold walkerFromState
      rw [if_pos hroot, if_pos hi, hw]
    · rename_i hi
      simp only [Except.ok.injEq, Prod.mk.injEq] at h
      obtain ⟨hw, hu⟩ := h
      subst hu
      unfold walkerFromState
      rw [if_pos hroot, if_neg hi, hw]
  · rename_i hroot
    dsimp only at h
    cases hn : getNode C.root q with
    | none => rw [hn] at h; exact absurd h (by simp)
    | some node =>
      rw [hn] at h
      cases node with
      | comment d => exact absurd h (by simp)
      | text d =>
        cases q with
        | nil => exact absurd h (by simp)
        | cons j p =>
          dsimp only at h
          cases hp : getNode C.root p with
          | none => rw [hp] at h; exact absurd h (by simp)
          | some parent =>
            rw [hp] at h
            dsimp only at h
            cases hpe : prevElemIdx parent.children j with
            | some j0 =>
              rw [hpe] at h
              dsimp only at h
              cases hix : getAnnIdx t.annots (.tree (j0 :: p)) .after with
              | none => rw [hix] at h; exact absurd h (by simp [readyWalker])
              | some idx =>
                rw [hix] at h
                have hidx := annOK_idx_le hA hix
                split at h
                · exact absurd h (by simp)
                · rename_i r0 hrw
                  obtain ⟨r1, r2⟩ := r0
                  dsimp only at h
                  have hsave := h
                  have hs1 : s1 = r2 := by
                    split at hsave <;>
                      (simp only [Except.ok.injEq, Prod.mk.injEq] at hsave
                       exact hsave.2.symm)
                  subst hs1
                  unfold walkerFromState
                  rw [if_neg hroot]
                  dsimp only
                  rw [hn]
                  dsimp only
                  rw [hp]
                  dsimp only
                  rw [hpe]
                  dsimp only
                  rw [(readyWalker_proj hrw).1, hix]
                  rw [readyWalker_shift hrw hidx s1 rfl rfl
                    ⟨[], by rw [List.append_nil]; exact (readyWalker_proj hrw).2.1⟩]
                  dsimp only
                  exact h
            | none =>
              rw [hpe] at h
              dsimp only at h
              cases hix : getAnnIdx t.annots (.tree p) .afterStart with
              | none => rw [hix] at h; exact absurd h (by simp [readyWalker])
              | some idx =>
                rw [hix] at h
                have hidx := annOK_idx_le hA hix
                split at h
                · exact absurd h (by simp)
                · rename_i r0 hrw
                  obtain ⟨r1, r2⟩ := r0
                  dsimp only at h
                  have hsave := h
                  have hs1 : s1 = r2 := by
                    split at hsave <;>
                      (simp only [Except.ok.injEq, Prod.mk.injEq] at hsave
                       exact hsave.2.symm)
                  subst hs1
                  unfold walkerFromState
                  rw [if_neg hroot]
                  dsimp only
                  rw [hn]
                  dsimp only
                  rw [hp]
                  dsimp only
                  rw [hpe]
                  dsimp only
                  rw [(readyWalker_proj hrw).1, hix]
                  rw [readyWalker_shift hrw hidx s1 rfl rfl
                    ⟨[], by rw [List.append_nil]; exact (readyWalker_proj hrw).2.1⟩]
                  dsimp only
                  exact h
      | element tag attrs ch =>
        dsimp only at h
        split at h
        · rename_i ha
          split at h
          · exact absurd h (by simp)
          · rename_i cur hlt
            cases hix : getAnnIdx t.annots (.tree (i.toNat :: q)) .afterAttributes with
            | none => rw [hix] at h; exact absurd h (by simp [readyWalker])
            | some idx =>
              rw [hix] at h
              have hidx := annOK_idx_le hA hix
              unfold walkerFromState
              rw [if_neg hroot]
              dsimp only
              rw [hn]
              dsimp only
              rw [if_pos ha, hlt]
              dsimp only
              rw [(readyWalker_proj h).1, hix]
              rw [readyWalker_shift h hidx s1 rfl rfl
                ⟨[], by rw [List.append_nil]; exact (readyWalker_proj h).2.1⟩]
        · rename_i ha
          split at h
          · exact absurd h (by simp)
          · rename_i r0 hrw
            obtain ⟨r1, r2⟩ := r0
            dsimp only at h
            cases hgg : (if i < 0 then none
                else (DomNode.element tag attrs ch).children.get? i.toNat) with
            | none =>
              rw [hgg] at hrw h
              dsimp only at hrw
              cases hpe2 : lastElemIdx (DomNode.element tag attrs ch).children with
              | some j0 =>
                rw [hpe2] at hrw
                dsimp only at hrw
                cases hix : getAnnIdx t.annots (.tree (j0 :: q)) .after with
                | none => rw [hix] at hrw; exact absurd hrw (by simp [readyWalker])
                | some idx =>
                  rw [hix] at hrw
                  have hidx := annOK_idx_le hA hix
                  have hsave := h
                  have hs1 : s1 = r2 := by
                    rw [if_neg (by simp)] at hsave
                    simp only [Except.ok.injEq, Prod.mk.injEq] at hsave
                    exact hsave.2.symm
                  subst hs1
                  unfold walkerFromState
                  rw [if_neg hroot]
                  dsimp only
                  rw [hn]
                  dsimp only
                  rw [if_neg ha, hgg]
                  dsimp only
                  rw [hpe2]
                  dsimp only
                  rw [(readyWalker_proj hrw).1, hix]
                  rw [readyWalker_shift hrw hidx s1 rfl rfl
                    ⟨[], by rw [List.append_nil]; exact (readyWalker_proj hrw).2.1⟩]
                  dsimp only
                  exact h
              | none =>
                rw [hpe2] at hrw
                dsimp only at hrw
                cases hix : getAnnIdx t.annots (.tree q) .afterStart with
                | none => rw [hix] at hrw; exact absurd hrw (by simp [readyWalker])
                | some idx =>
                  rw [hix] at hrw
                  have hidx := annOK_idx_le hA hix
                  have hsave := h
                  have hs1 : s1 = r2 := by
                    rw [if_neg (by simp)] at hsave
                    simp only [Except.ok.injEq, Prod.mk.injEq] at hsave
                    exact hsave.2.symm
                  subst hs1
                  unfold walkerFromState
                  rw [if_neg hroot]
                  dsimp only
                  rw [hn]
                  dsimp only
                  rw [if_neg ha, hgg]
                  dsimp only
                  rw [hpe2]
                  dsimp only
                  rw [(readyWalker_proj hrw).1, hix]
                  rw [readyWalker_shift hrw hidx s1 rfl rfl
                    ⟨[], by rw [List.append_nil]; exact (readyWalker_proj hrw).2.1⟩]
                  dsimp only
                  exact h
            | some nd2 =>
              rw [hgg] at hrw h
              dsimp only at hrw
              cases hpe2 : prevElemIdx (DomNode.element tag attrs ch).children i.toNat with
              | some j0 =>
                rw [hpe2] at hrw h
                dsimp only at hrw
                cases hix : getAnnIdx t.annots (.tree (j0 :: q)) .after with
                | none => rw [hix] at hrw; exact absurd hrw (by simp [readyWalker])
                | some idx =>
                  rw [hix] at hrw
                  have hidx := annOK_idx_le hA hix
                  have hsave := h
                  have hs1 : s1 = r2 := by
                    by_cases h1i : 1 ≤ i
                    · rw [if_pos ⟨rfl, h1i⟩] at hsave
                      cases hg1 : (DomNode.element tag attrs ch).children.get? (i - 1).toNat with
                      | none =>
                        rw [hg1] at hsave
                        dsimp only at hsave
                        simp only [Except.ok.injEq, Prod.mk.injEq] at hsave
                        exact hsave.2.symm
                      | some nd3 =>
                        rw [hg1] at hsave
                        cases nd3 with
                        | text d3 =>
                          dsimp only at hsave
                          by_cases hpv : (some j0 : Option Nat) = some (i - 1).toNat
                          · rw [if_pos hpv] at hsave
                            simp only [Except.ok.injEq, Prod.mk.injEq] at hsave
                            exact hsave.2.symm
                          · rw [if_neg hpv] at hsave
                            simp only [Except.ok.injEq, Prod.mk.injEq] at hsave
                            exact hsave.2.symm
                        | element tag3 attrs3 ch3 =>
                          dsimp only at hsave
                          simp only [Except.ok.injEq, Prod.mk.injEq] at hsave
                          exact hsave.2.symm
                        | comment d3 =>
                          dsimp only at hsave
                          simp only [Except.ok.injEq, Prod.mk.injEq] at hsave
                          exact hsave.2.symm
                    · rw [if_neg (fun hc => h1i hc.2)] at hsave
                      simp only [Except.ok.injEq, Prod.mk.injEq] at hsave
                      exact hsave.2.symm
                  subst hs1
                  unfold walkerFromState
                  rw [if_neg hroot]
                  dsimp only
                  rw [hn]
                  dsimp only
                  rw [if_neg ha, hgg]
                  dsimp only
                  rw [hpe2]
                  dsimp only
                  rw [(readyWalker_proj hrw).1, hix]
                  rw [readyWalker_shift hrw hidx s1 rfl rfl
                    ⟨[], by rw [List.append_nil]; exact (readyWalker_proj hrw).2.1⟩]
                  dsimp only
                  exact h
              | none =>
                rw [hpe2] at hrw h
                dsimp only at hrw
                cases hix : getAnnIdx t.annots (.tree q) .afterStart with
                | none => rw [hix] at hrw; exact absurd hrw (by simp [readyWalker])
                | some idx =>
                  rw [hix] at hrw
                  have hidx := annOK_idx_le hA hix
                  have hsave := h
                  have hs1 : s1 = r2 := by
                    by_cases h1i : 1 ≤ i
                    · rw [if_pos ⟨rfl, h1i⟩] at hsave
                      cases hg1 : (DomNode.element tag attrs ch).children.get? (i - 1).toNat with
                      | none =>
                        rw [hg1] at hsave
                        dsimp only at hsave
                        simp only [Except.ok.injEq, Prod.mk.injEq] at hsave
                        exact hsave.2.symm
                      | some nd3 =>
                        rw [hg1] at hsave
                        cases nd3 with
                        | text d3 =>
                          dsimp only at hsave
                          rw [if_neg (by simp)] at hsave
                          simp only [Except.ok.injEq, Prod.mk.injEq] at hsave
                          exact hsave.2.symm
                        | element tag3 attrs3 ch3 =>
                          dsimp only at hsave
                          simp only [Except.ok.injEq, Prod.mk.injEq] at hsave
                          exact hsave.2.symm
                        | comment d3 =>
                          dsimp only at hsave
                          simp only [Except.ok.injEq, Prod.mk.injEq] at hsave
                          exact hsave.2.symm
                    · rw [if_neg (fun hc => h1i hc.2)] at hsave
                      simp only [Except.ok.injEq, Prod.mk.injEq] at hsave
                      exact hsave.2.symm
                  subst hs1
                  unfold walkerFromState
                  rw [if_neg hroot]
                  dsimp only
                  rw [hn]
                  dsimp only
                  rw [if_neg ha, hgg]
                  dsimp only
                  rw [hpe2]
                  dsimp only
                  rw [(readyWalker_proj hrw).1, hix]
                  rw [readyWalker_shift hrw hidx s1 rfl rfl
                    ⟨[], by rw [List.append_nil]; exact (readyWalker_proj hrw).2.1⟩]
                  dsimp only
                  exact h

/-- Re-issuing `_getWalkerAt`'s resolution step at the same location on its
own output state returns the same walker, and the second run leaves the
stored annotations unchanged; moreover the first run never changes any
stored event-index annotation (the attribute branch only rewrites the
wildcard flag). -/
theorem walkerFromState_twice {C : VCtx W} {cfg : VConfig} {c : NodeRef} {i : Int}
    {a : Bool} {t : VState W} {w1 : W} {s1 : VState W}
    (hA : AnnOK t.annots t.validationEvents.length)
    (h : walkerFromState C cfg c i a t = .ok (w1, s1)) :
    (∀ r k, getAnnIdx s1.annots r k = getAnnIdx t.annots r k) ∧
    ∃ s2, walkerFromState C cfg c i a s1 = .ok (w1, s2) ∧ s2.annots = s1.annots := by
  cases c with
  | tree q =>
    exact ⟨fun r k => by rw [(walkerFromState_state h).1],
      s1, walkerFromState_fix hA h, rfl⟩
  | attr p j =>
    unfold walkerFromState at h
    split at h
    · rename_i hroot
      exact absurd hroot.1 (by simp)
    · rename_i hroot
      dsimp only at h
      cases hix : getAnnIdx t.annots (.tree p) .beforeAttributes with
      | none => rw [hix] at h; exact absurd h (by simp [readyWalker])
      | some idx =>
        rw [hix] at h
        have hidx := annOK_idx_le hA hix
        split at h
        · exact absurd h (by simp)
        · rename_i r0 hrw
          obtain ⟨r1, r2⟩ := r0
          dsimp only at h
          obtain ⟨hann, hlog, herr, hvw, hfe, hnt⟩ := readyWalker_proj hrw
          cases hgn : getNode C.root p with
          | none => rw [hgn] at h; exact absurd h (by simp)
          | some owner =>
            rw [hgn] at h
            dsimp only at h
            cases hat : owner.attrsOf.get? j with
            | none => rw [hat] at h; exact absurd h (by simp)
            | some av =>
              rw [hat] at h
              dsimp only at h
              by_cases hx : (av.1 = "xmlns" || av.1.startsWith "xmlns:") = true
              · rw [if_pos hx] at h
                simp only [Except.ok.injEq, Prod.mk.injEq] at h
                obtain ⟨hw, hu⟩ := h
                have hann1 : s1.annots = t.annots := by rw [← hu]; exact hann
                refine ⟨fun r k => by rw [hann1], s1, ?_, rfl⟩
                unfold walkerFromState
                rw [if_neg hroot]
                dsimp only
                rw [hann1, hix]
                rw [readyWalker_shift hrw hidx s1 (by rw [← hu]) (by rw [← hu])
                  ⟨[], by rw [List.append_nil, ← hu]; exact hlog⟩]
                dsimp only
                rw [hgn]
                dsimp only
                rw [hat]
                dsimp only
                rw [if_pos hx, hw]
              · rw [if_neg hx] at h
                unfold fireAttributeNameEvent at h
                cases hrn : C.g.resolveNameFn r1 av.1 true with
                | none =>
                  rw [hrn] at h
                  dsimp only at h
                  simp only [Except.ok.injEq, Prod.mk.injEq] at h
                  obtain ⟨hw, hu⟩ := h
                  have hann1 : s1.annots = t.annots := by rw [← hu]; exact hann
                  refine ⟨fun r k => by rw [hann1],
                    processError ⟨⟨"cannot resolve attribute name " ++ av.1⟩,
                      some (.attr p j), some 0⟩ s1, ?_, rfl⟩
                  unfold walkerFromState
                  rw [if_neg hroot]
                  dsimp only
                  rw [hann1, hix]
                  rw [readyWalker_shift hrw hidx s1 (by rw [← hu]; rfl) (by rw [← hu]; rfl)
                    ⟨[], by rw [List.append_nil, ← hu]; exact hlog⟩]
                  dsimp only
                  rw [hgn]
                  dsimp only
                  rw [hat]
                  dsimp only
                  rw [if_neg hx]
                  unfold fireAttributeNameEvent
                  rw [hrn]
                  dsimp only
                  rw [hw]
                | some en =>
                  rw [hrn] at h
                  dsimp only at h
                  rw [fireAndProcessEvent_eq] at h
                  dsimp only at h
                  simp only [Except.ok.injEq, Prod.mk.injEq] at h
                  obtain ⟨hw, hu⟩ := h
                  have hann1 : s1.annots = setAnn r2.annots (.attr p j) (fun aa => { aa with possibleDueToWildcard := some (isPossibleDueToWildcard C.g r1 "attributeName" en.ns en.name) }) := by
                    rw [← hu, processEventResult_eq, setPossibleDueToWildcard_eq]
                  have hpres : ∀ r k, getAnnIdx s1.annots r k = getAnnIdx t.annots r k := by
                    intro r k
                    rw [hann1, getAnnIdx_setWild, hann]
                  have hcac : s1.walkerCache = r2.walkerCache := by
                    rw [← hu, processEventResult_eq, setPossibleDueToWildcard_eq]
                  have hmaxx : s1.walkerCacheMax = r2.walkerCacheMax := by
                    rw [← hu, processEventResult_eq, setPossibleDueToWildcard_eq]
                  have hlg : s1.validationEvents =
                      t.validationEvents ++ [VEvent.attributeName en.ns en.name] := by
                    rw [← hu, processEventResult_eq, setPossibleDueToWildcard_eq]
                    dsimp only
                    rw [hlog]
                  have hshift := readyWalker_shift hrw hidx s1 hcac hmaxx
                    ⟨[VEvent.attributeName en.ns en.name], hlg⟩
                  have hstored : getAnn s1.annots (.attr p j) = { getAnn r2.annots (.attr p j) with possibleDueToWildcard := some (isPossibleDueToWildcard C.g r1 "attributeName" en.ns en.name) } := by
                    rw [hann1, getAnn_setAnn_self]
                  have hfix : setAnn s1.annots (.attr p j) (fun aa => { aa with possibleDueToWildcard := some (isPossibleDueToWildcard C.g r1 "attributeName" en.ns en.name) }) = s1.annots := by
                    apply setAnn_self_of_eq
                    · rw [hann1]
                      exact hasRef_setAnn_self _ _ _
                    · rw [hstored]
                  refine ⟨hpres, (fireAndProcessEvent C r1 (.attributeName en.ns en.name)
                    (some (.attr p j)) (some 0) false
                    (setPossibleDueToWildcard C (.attr p j) r1 "attributeName"
                      en.ns en.name s1)).2, ?_, ?_⟩
                  · unfold walkerFromState
                    rw [if_neg hroot]
                    dsimp only
                    rw [hpres (NodeRef.tree p) AnnKey.beforeAttributes, hix]
                    rw [hshift]
                    dsimp only
                    rw [hgn]
                    dsimp only
                    rw [hat]
                    dsimp only
                    rw [if_neg hx]
                    unfold fireAttributeNameEvent
                    rw [hrn]
                    dsimp only
                    rw [fireAndProcessEvent_eq]
                    dsimp only
                    rw [hw]
                  · rw [fireAndProcessEvent_eq]
                    dsimp only
                    rw [processEventResult_eq, setPossibleDueToWildcard_eq]
                    dsimp only
                    exact hfix

/-! ### Option-processing lemmas -/

theorem applyOpt_nonneg (dflt : Int) (nm : String) {v : Int} (hv : 0 ≤ v) :
    applyOpt dflt nm (some v) = .ok v := by
  simp only [applyOpt]
  rw [if_neg (by omega)]

theorem applyOpt_neg (dflt : Int) (nm : String) {v : Int} (hv : v < 0) :
    applyOpt dflt nm (some v) =
      .error ("the value for " ++ nm ++ " cannot be negative") := by
  simp only [applyOpt]
  rw [if_pos hv]

theorem applyOpt_ok (dflt : Int) (nm : String) {v? : Option Int}
    (h : ∀ v, v? = some v → 0 ≤ v) : applyOpt dflt nm v? = .ok (v?.getD dflt) := by
  cases v? with
  | none => rfl
  | some v =>
    simp only [Option.getD_some]
    exact applyOpt_nonneg dflt nm (h v rfl)

/-- The constructor's initial annotation store is bounded by the initial
(empty) event log. -/
theorem annOK_initState (C : VCtx W) :
    AnnOK (initState C).annots (initState C).validationEvents.length := by
  intro p hp
  simp only [initState, setAnn] at hp
  rw [List.mem_singleton] at hp
  rw [hp]
  rfl

/-! ### Claim theorems -/

/-- C1: a completed run (the cycle that reaches the end-tag stage of the root
finalizes the automaton and returns `false`) ends with working state `valid`
exactly when no errors were recorded, `invalid` otherwise; with a grammar
that accepts everything the run feeds it — a document that exactly matches
the grammar — no error is ever recorded, so a completed run from the
constructor state ends `valid` with an empty error list. -/
theorem claim_C1 {W : Type} (C : VCtx W) (fuel : Nat) (s s' : VState W) (b : Bool) :
    (run C fuel s = .ok (s', false) →
      s'.workingState = (if s'.errors = [] then WState.valid else WState.invalid)) ∧
    (AllAccepting C.g → run C fuel s = .ok (s', b) → s'.errors = s.errors) ∧
    (AllAccepting C.g → run C fuel (initState C) = .ok (s', false) →
      s'.workingState = WState.valid ∧ s'.errors = []) := by
  refine ⟨?_, ?_, ?_⟩
  · intro h
    exact (run_spec C fuel h).2.2.2 rfl
  · intro hA h
    exact (run_spec C fuel h).2.2.1 hA
  · intro hA h
    have he : s'.errors = [] := (run_spec C fuel h).2.2.1 hA
    have hws := (run_spec C fuel h).2.2.2 rfl
    refine ⟨?_, he⟩
    rw [hws, he]
    simp

theorem claim_C1_witness :
    run sampleCtx 9 (initState sampleCtx) = .ok (c1Final, false) ∧
    c1Final.workingState = WState.valid ∧ c1Final.errors = [] :=
  ⟨rfl, (claim_C1 sampleCtx 9 (initState sampleCtx) c1Final false).2.2
    unitGrammar_accepting rfl⟩

/-- C4 (amended): after any number of traversal cycles from the constructor
state, the event log is exactly the ordered sequence of non-text events
fired at the live automaton; the text events fired by `flushText` are fired
but never appended to the log. -/
theorem claim_C4 {W : Type} (C : VCtx W) (fuel : Nat) (s' : VState W) (b : Bool) :
    run C fuel (initState C) = .ok (s', b) →
    s'.validationEvents = List.filter (fun e => !e.isText) s'.firedEvents := by
  intro h
  exact (run_spec C fuel h).1.c4 rfl

/-- C4, claim as stated, is false: on a document whose root contains one text
node, the completed run fired one `text` event at the live automaton but the
event log stayed empty, so the log is not the sequence of fired events. -/
theorem claim_C4_cx :
    run textCtx 9 (initState textCtx) = .ok (c4Final, false) ∧
    c4Final.firedEvents = [VEvent.text "hi"] ∧ c4Final.validationEvents = [] ∧
    c4Final.validationEvents ≠ c4Final.firedEvents := by
  refine ⟨rfl, rfl, rfl, ?_⟩
  decide

theorem claim_C4_witness :
    run textCtx 9 (initState textCtx) = .ok (c4Final, false) ∧
    c4Final.validationEvents =
      List.filter (fun e => !e.isText) c4Final.firedEvents :=
  ⟨rfl, claim_C4 textCtx 9 c4Final false rfl⟩

/-- C6: `stop()` with no explicit state demotes a mid-run (`working`)
validator to `incomplete`; a traversal cycle that does not complete the
document never produces `valid` or `invalid`; and the completing cycle sets
exactly `valid` or `invalid` according to the recorded errors. -/
theorem claim_C6 {W : Type} (C : VCtx W) (s s' : VState W) :
    (s.workingState = WState.working →
      (stopWith none s).workingState = WState.incomplete) ∧
    (s.workingState ≠ WState.valid → s.workingState ≠ WState.invalid →
      cycle C s = .ok (s', true) →
      s'.workingState ≠ WState.valid ∧ s'.workingState ≠ WState.invalid) ∧
    (cycle C s = .ok (s', false) →
      s'.workingState = (if s'.errors = [] then WState.valid else WState.invalid)) := by
  refine ⟨?_, ?_, ?_⟩
  · intro hw
    unfold stopWith
    dsimp only
    rw [if_pos hw]
    simp
  · intro h1 h2 hc
    obtain ⟨_, _, _, _, hwt, _⟩ := cycle_spec C hc
    rcases hwt rfl with hw | hw
    · rw [hw]
      exact ⟨h1, h2⟩
    · rw [hw]
      exact ⟨by simp, by simp⟩
  · intro hc
    exact (cycle_spec C hc).2.2.2.2.2 rfl

theorem claim_C6_witness :
    workingSample.workingState = WState.working ∧
    (stopWith none workingSample).workingState = WState.incomplete ∧
    cycle sampleCtx (initState sampleCtx) = .ok (c6Mid, true) ∧
    c6Mid.workingState ≠ WState.valid ∧ c6Mid.workingState ≠ WState.invalid :=
  ⟨rfl, (claim_C6 sampleCtx workingSample workingSample).1 rfl, rfl,
    (claim_C6 sampleCtx (initState sampleCtx) c6Mid).2.1 (by decide) (by decide) rfl⟩

/-- C7: invoking a traversal cycle while one is already running (positive
entry counter) throws the fatal re-entrancy error; a cycle that returns
normally entered with the counter at zero and leaves it at zero, so under
non-reentrant use the counter never becomes negative and the re-entrancy
branch is unreachable. -/
theorem claim_C7 {W : Type} (C : VCtx W) (fuel : Nat) (s s' : VState W) (b : Bool) :
    (s.cycleEntered > 0 →
      cycle C s = .error "internal error: _cycle is being reentered") ∧
    (cycle C s = .ok (s', b) → s.cycleEntered = 0 ∧ s'.cycleEntered = 0) ∧
    (run C fuel s = .ok (s', b) → s.cycleEntered = 0 →
      s'.cycleEntered = 0 ∧ 0 ≤ s'.cycleEntered) := by
  refine ⟨?_, ?_, ?_⟩
  · intro hgt
    unfold cycle
    dsimp only
    rw [if_pos hgt]
  · intro hc
    obtain ⟨hz, _, he, _⟩ := cycle_spec C hc
    exact ⟨hz, he⟩
  · intro hr hz
    have h0 := (run_spec C fuel hr).2.1 hz
    exact ⟨h0, by rw [h0]⟩

theorem claim_C7_witness :
    enteredSample.cycleEntered > 0 ∧
    cycle sampleCtx enteredSample =
      .error "internal error: _cycle is being reentered" ∧
    cycle sampleCtx (initState sampleCtx) = .ok (c6Mid, true) ∧
    (initState sampleCtx).cycleEntered = 0 ∧ c6Mid.cycleEntered = 0 :=
  ⟨by decide,
    (claim_C7 sampleCtx 9 enteredSample c6Mid true).1 (by decide), rfl,
    ((claim_C7 sampleCtx 9 (initState sampleCtx) c6Mid true).2.1 rfl).1,
    ((claim_C7 sampleCtx 9 (initState sampleCtx) c6Mid true).2.1 rfl).2⟩

/-- C9: constructor option processing throws for any explicitly supplied
negative `timeout`, `maxTimespan` or `walkerCacheGap`; when all supplied
values are non-negative (zero included) it succeeds, each supplied value
replacing its default (`timeout` 200, `maxTimespan` 100,
`walkerCacheGap` 100). -/
theorem claim_C9 (o : VOptions) :
    ((∃ v, o.timeout = some v ∧ v < 0) ∨ (∃ v, o.maxTimespan = some v ∧ v < 0) ∨
        (∃ v, o.walkerCacheGap = some v ∧ v < 0) →
      ∃ e, applyOptions o = .error e) ∧
    ((∀ v, o.timeout = some v → 0 ≤ v) → (∀ v, o.maxTimespan = some v → 0 ≤ v) →
      (∀ v, o.walkerCacheGap = some v → 0 ≤ v) →
      ∃ cfg, applyOptions o = .ok cfg ∧ cfg.timeout = o.timeout.getD 200 ∧
        cfg.maxTimespan = o.maxTimespan.getD 100 ∧
        cfg.walkerCacheGap = o.walkerCacheGap.getD 100) := by
  constructor
  · intro h
    unfold applyOptions
    rcases h with ⟨v, hv, hneg⟩ | ⟨v, hv, hneg⟩ | ⟨v, hv, hneg⟩
    · rw [hv, applyOpt_neg _ _ hneg]
      exact ⟨_, rfl⟩
    · cases ht : applyOpt 200 "timeout" o.timeout with
      | error e => exact ⟨e, rfl⟩
      | ok t =>
        rw [hv, applyOpt_neg _ _ hneg]
        exact ⟨_, rfl⟩
    · cases ht : applyOpt 200 "timeout" o.timeout with
      | error e => exact ⟨e, rfl⟩
      | ok t =>
        cases hm : applyOpt 100 "maxTimespan" o.maxTimespan with
        | error e => exact ⟨e, rfl⟩
        | ok m =>
          rw [hv, applyOpt_neg _ _ hneg]
          exact ⟨_, rfl⟩
  · intro h1 h2 h3
    simp only [applyOptions, applyOpt_ok _ _ h1, applyOpt_ok _ _ h2,
      applyOpt_ok _ _ h3]
    cases o.pfx with
    | none => exact ⟨_, rfl, rfl, rfl, rfl⟩
    | some p =>
      by_cases hp : p = ""
      · subst hp
        exact ⟨_, rfl, rfl, rfl, rfl⟩
      · dsimp only
        rw [if_neg hp]
        exact ⟨_, rfl, rfl, rfl, rfl⟩

theorem claim_C9_witness :
    (∃ e, applyOptions { timeout := some (-5) } = .error e) ∧
    (∃ cfg, applyOptions { timeout := some 7, walkerCacheGap := some 0 } = .ok cfg ∧
      cfg.timeout = (some (7 : Int)).getD 200 ∧
      cfg.maxTimespan = (none : Option Int).getD 100 ∧
      cfg.walkerCacheGap = (some (0 : Int)).getD 100) :=
  ⟨(claim_C9 { timeout := some (-5) }).1 (Or.inl ⟨-5, rfl, by decide⟩),
   (claim_C9 { timeout := some 7, walkerCacheGap := some 0 }).2
     (fun v hv => by simp at hv; omega)
     (fun v hv => by simp at hv)
     (fun v hv => by simp at hv; omega)⟩

/-- C8 (amended): re-evaluating a node's wildcard-only acceptance always
stores the computed flag on the node; the change notification is published
exactly when no value was previously stored on that node or the stored value
differs from the computed one.  In particular a re-evaluation that computes
the same value as previously stored publishes nothing — but the first
evaluation, with no previously stored value, publishes even though no
stored value flipped. -/
theorem claim_C8 {W : Type} (C : VCtx W) (node : NodeRef) (w : W)
    (eventName ns nm : String) (s : VState W) :
    ((getAnn (setPossibleDueToWildcard C node w eventName ns nm s).annots
        node).possibleDueToWildcard =
      some (isPossibleDueToWildcard C.g w eventName ns nm)) ∧
    ((setPossibleDueToWildcard C node w eventName ns nm s).notices =
      s.notices ++
        (if (getAnn s.annots node).possibleDueToWildcard = none ∨
            (getAnn s.annots node).possibleDueToWildcard ≠
              some (isPossibleDueToWildcard C.g w eventName ns nm) then
          [Notice.wildcardChange node]
        else [])) ∧
    ((getAnn s.annots node).possibleDueToWildcard =
        some (isPossibleDueToWildcard C.g w eventName ns nm) →
      (setPossibleDueToWildcard C node w eventName ns nm s).notices = s.notices) := by
  refine ⟨?_, ?_, ?_⟩
  · rw [setPossibleDueToWildcard_eq]
    show (getAnn (setAnn s.annots node _) node).possibleDueToWildcard = _
    rw [getAnn_setAnn_self]
  · rw [setPossibleDueToWildcard_eq]
  · intro h
    rw [setPossibleDueToWildcard_eq]
    show s.notices ++ _ = s.notices
    rw [h]
    simp

/-- C8, claim as stated, is false: on a node that stores no previous value at
all, re-evaluation publishes the change notification even though no stored
value flipped (the code also publishes when `previous === undefined`). -/
theorem claim_C8_cx :
    (getAnn (initState sampleCtx).annots (.tree [0])).possibleDueToWildcard =
      none ∧
    (setPossibleDueToWildcard sampleCtx (.tree [0]) 0 "enterStartTag" "" "a"
        (initState sampleCtx)).notices =
      (initState sampleCtx).notices ++ [Notice.wildcardChange (.tree [0])] ∧
    (initState sampleCtx).notices = [] :=
  ⟨rfl, rfl, rfl⟩

theorem claim_C8_witness :
    (getAnn c8Stored.annots (.tree [0])).possibleDueToWildcard =
      some (isPossibleDueToWildcard sampleCtx.g 0 "x" "" "a") ∧
    (setPossibleDueToWildcard sampleCtx (.tree [0]) 0 "x" "" "a" c8Stored).notices =
      c8Stored.notices :=
  ⟨rfl, (claim_C8 sampleCtx (.tree [0]) 0 "x" "" "a" c8Stored).2.2 rfl⟩

/-- C10: `getErrorsFor` on a path without a parent (the root container)
throws; on a child `j` of container `q` it first forces synchronous
validation up to location `(q, j + 1)` — just after the node's closing
tag — and then returns, in recording order, exactly the recorded errors
whose node field is that node, together with the updated state. -/
theorem claim_C10 {W : Type} (C : VCtx W) (fuel : Nat) (j : Nat) (q : Path)
    (s s1 : VState W) :
    getErrorsFor C fuel [] s = .error "node without a parent!" ∧
    (validateUpTo C fuel (.tree q) ((j : Int) + 1) false s = .ok s1 →
      getErrorsFor C fuel (j :: q) s =
        .ok (s1.errors.filter (fun e => decide (e.node = some (.tree (j :: q)))),
          s1)) := by
  refine ⟨rfl, ?_⟩
  intro h
  unfold getErrorsFor
  dsimp only
  rw [h]

theorem claim_C10_witness :
    validateUpTo errCtx 9 (.tree []) (((0 : Nat) : Int) + 1) false
      (initState errCtx) = .ok c10After ∧
    getErrorsFor errCtx 9 [0] (initState errCtx) =
      .ok (c10After.errors.filter
        (fun e => decide (e.node = some (.tree [0]))), c10After) ∧
    c10After.errors.filter (fun e => decide (e.node = some (.tree [0]))) =
      [⟨⟨"late"⟩, some (.tree [0]), some 0⟩] ∧
    getErrorsFor errCtx 9 [] (initState errCtx) = .error "node without a parent!" :=
  ⟨rfl,
   (claim_C10 errCtx 9 0 [] (initState errCtx) c10After).2 rfl,
   rfl,
   (claim_C10 errCtx 9 0 [] (initState errCtx) c10After).1⟩


/-- C2: the `walkerCacheGap` option affects only which automaton snapshots
are cached, never the validation outcome: (1) running a document to
completion with any two non-negative gap values produces identical results
(the traversal never consults the gap); (2) the walker a query's
`readyWalker` returns does not depend on the gap; (3) on a cache miss a
snapshot is inserted exactly when the replay distance just performed is at
least the gap, and otherwise the cache is unchanged. -/
theorem claim_C2 {W : Type} (C : VCtx W) (cfg : VConfig) (o : VOptions)
    (g1 g2 : Int) (fuel : Nat) (idx : Nat) (idx? : Option Nat) (s : VState W)
    (w : W) (s' : VState W) :
    (0 ≤ g1 → 0 ≤ g2 →
      runValidator C { o with walkerCacheGap := some g1 } fuel =
        runValidator C { o with walkerCacheGap := some g2 } fuel) ∧
    ((readyWalker C { cfg with walkerCacheGap := g1 } idx? s).map Prod.fst =
      (readyWalker C { cfg with walkerCacheGap := g2 } idx? s).map Prod.fst) ∧
    (lookupCache s.walkerCache idx = none →
      readyWalker C cfg (some idx) s = .ok (w, s') →
      ((idx : Int) - ((readySearch s.walkerCache s.walkerCacheMax idx).1 : Int) ≥
          cfg.walkerCacheGap →
        s'.walkerCache = (idx, w) :: s.walkerCache) ∧
      (¬ ((idx : Int) - ((readySearch s.walkerCache s.walkerCacheMax idx).1 : Int) ≥
          cfg.walkerCacheGap) →
        s'.walkerCache = s.walkerCache)) := by
  refine ⟨?_, ?_, ?_⟩
  · intro h1 h2
    unfold runValidator applyOptions
    dsimp only
    rw [applyOpt_nonneg _ _ h1, applyOpt_nonneg _ _ h2]
    cases ht : applyOpt 200 "timeout" o.timeout with
    | error e => rfl
    | ok tv =>
      cases hm : applyOpt 100 "maxTimespan" o.maxTimespan with
      | error e => rfl
      | ok mv =>
        cases o.pfx with
        | none => rfl
        | some p =>
          by_cases hp : p = ""
          · simp only [if_pos hp]
          · simp only [if_neg hp]
  · cases idx? with
    | none => rfl
    | some j =>
      unfold readyWalker
      dsimp only
      cases hl : lookupCache s.walkerCache j with
      | some w' => rfl
      | none =>
        by_cases hc1 : (j : Int) - ((readySearch s.walkerCache s.walkerCacheMax j).1 : Int) ≥ g1
        · rw [if_pos hc1]
          by_cases hc2 : (j : Int) - ((readySearch s.walkerCache s.walkerCacheMax j).1 : Int) ≥ g2
          · rw [if_pos hc2]
          · rw [if_neg hc2]
            rfl
        · rw [if_neg hc1]
          by_cases hc2 : (j : Int) - ((readySearch s.walkerCache s.walkerCacheMax j).1 : Int) ≥ g2
          · rw [if_pos hc2]
            rfl
          · rw [if_neg hc2]
  · intro hl hrw
    unfold readyWalker at hrw
    dsimp only at hrw
    rw [hl] at hrw
    constructor
    · intro hcond
      rw [if_pos hcond] at hrw
      simp only [Except.ok.injEq, Prod.mk.injEq] at hrw
      obtain ⟨hw, hu⟩ := hrw
      rw [← hu, ← hw]
    · intro hcond
      rw [if_neg hcond] at hrw
      simp only [Except.ok.injEq, Prod.mk.injEq] at hrw
      rw [← hrw.2]

theorem claim_C2_witness :
    runValidator sampleCtx { walkerCacheGap := some 1 } 9 =
      runValidator sampleCtx { walkerCacheGap := some 1000 } 9 ∧
    readyWalker sampleCtx { walkerCacheGap := 0 } (some 0) (initState sampleCtx) =
      .ok (0, c2Ins) ∧
    c2Ins.walkerCache = (0, 0) :: (initState sampleCtx).walkerCache ∧
    readyWalker sampleCtx {} (some 0) (initState sampleCtx) =
      .ok (0, initState sampleCtx) ∧
    (initState sampleCtx).walkerCache = [] :=
  ⟨(claim_C2 sampleCtx {} {} 1 1000 9 0 none (initState sampleCtx) 0 c2Ins).1
      (by decide) (by decide),
   rfl,
   ((claim_C2 sampleCtx { walkerCacheGap := 0 } {} 1 1000 9 0 none
      (initState sampleCtx) 0 c2Ins).2.2 rfl rfl).1 (by decide),
   rfl,
   ((claim_C2 sampleCtx {} {} 1 1000 9 0 none
      (initState sampleCtx) 0 (initState sampleCtx)).2.2 rfl rfl).2 (by decide)⟩

/-- C3 (amended): when the target location has already been validated (the
forced catch-up `_validateUpTo` finds its annotation present and returns the
state unchanged) and the container is a tree node, a speculative fragment
validation leaves the live validator's error list, event log and node
annotations untouched; only the walker cache may change.  Without the
already-validated condition the call runs live catch-up cycles and does
mutate the live log and annotations (see the counterexample). -/
theorem claim_C3 {W : Type} (C : VCtx W) (cfg : VConfig) (fuel : Nat) (q : Path)
    (i : Int) (toParse : DomNode) (s : VState W) (res : Option (List ErrorData))
    (s' : VState W)
    (hval : validateUpTo C fuel (.tree q) i false s = .ok s)
    (h : speculativelyValidateFragment C cfg fuel (.tree q) i toParse s =
      .ok (res, s')) :
    s'.errors = s.errors ∧ s'.validationEvents = s.validationEvents ∧
    s'.annots = s.annots := by
  unfold speculativelyValidateFragment at h
  cases toParse with
  | text d => exact absurd h (by simp)
  | comment d => exact absurd h (by simp)
  | element tag attrs ch =>
    dsimp only at h
    unfold getWalkerAt at h
    dsimp only [attrGuard] at h
    rw [hval] at h
    dsimp only at h
    cases hw : walkerFromState C cfg (.tree q) i false s with
    | error e => rw [hw] at h; exact absurd h (by simp)
    | ok r =>
      obtain ⟨rw1, ru⟩ := r
      rw [hw] at h
      split at h
      · exact absurd h (by simp)
      · rename_i rr hrr
        injection hrr with hrr2
        subst hrr2
        split at h
        · exact absurd h (by simp)
        · simp only [Except.ok.injEq, Prod.mk.injEq] at h
          obtain ⟨hres, hs⟩ := h
          obtain ⟨h1, h2, h3, h4, h5⟩ := walkerFromState_state hw
          rw [← hs]
          exact ⟨h3, h2, h1⟩

/-- C3, claim as stated, is false: a speculative fragment validation from the
unvalidated constructor state forces live catch-up validation, growing the
live event log from 0 to 5 entries and changing the node annotations. -/
theorem claim_C3_cx :
    (∃ r, speculativelyValidateFragment sampleCtx {} 9 (.tree []) 1
        (.element "div" [] []) (initState sampleCtx) = .ok (r, c3After)) ∧
    (initState sampleCtx).validationEvents.length = 0 ∧
    c3After.validationEvents.length = 5 ∧
    c3After.annots ≠ (initState sampleCtx).annots :=
  ⟨⟨none, rfl⟩, rfl, rfl, by decide⟩

theorem claim_C3_witness :
    validateUpTo sampleCtx 9 (.tree []) 1 false c1Final = .ok c1Final ∧
    speculativelyValidateFragment sampleCtx {} 9 (.tree []) 1
      (.element "div" [] []) c1Final = .ok (none, c3Wit) ∧
    c3Wit.errors = c1Final.errors ∧
    c3Wit.validationEvents = c1Final.validationEvents ∧
    c3Wit.annots = c1Final.annots :=
  ⟨rfl, rfl,
   claim_C3 sampleCtx {} 9 [] 1 (.element "div" [] []) c1Final none c3Wit rfl rfl⟩
/-- C5: under the reachable-state annotation invariant, a second `possibleAt`
query at the same location returns the same list of possible events, and the
stored node annotations are unchanged between the two calls. -/
theorem claim_C5 {W : Type} (C : VCtx W) (cfg : VConfig) (fuel : Nat) (c : NodeRef)
    (i : Int) (a : Bool) (s s1 : VState W) (r1 : List PosEvent)
    (hA : AnnOK s.annots s.validationEvents.length)
    (h1 : possibleAt C cfg fuel c i a s = .ok (r1, s1)) :
    ∃ s2, possibleAt C cfg fuel c i a s1 = .ok (r1, s2) ∧ s2.annots = s1.annots := by
  unfold possibleAt at h1 ⊢
  cases hG : getWalkerAt C cfg fuel c i a s with
  | error e => rw [hG] at h1; exact absurd h1 (by simp)
  | ok rr =>
    obtain ⟨w1, smid⟩ := rr
    rw [hG] at h1
    simp only [Except.ok.injEq, Prod.mk.injEq] at h1
    obtain ⟨hr1, hs1⟩ := h1
    subst hs1
    unfold getWalkerAt at hG
    split at hG
    · exact absurd hG (by simp)
    · rename_i u hguard
      cases hv : validateUpTo C fuel c i a s with
      | error e => rw [hv] at hG; exact absurd hG (by simp)
      | ok tmid =>
        rw [hv] at hG
        dsimp only at hG
        obtain ⟨hsim, hguardV, tgt, htgt, hpresT⟩ := validateUpTo_spec hv
        have hAt : AnnOK tmid.annots tmid.validationEvents.length := hsim.ann hA
        obtain ⟨hpres, s2, hcall2, hann2⟩ := walkerFromState_twice hAt hG
        have hnoop : validateUpTo C fuel c i a smid = .ok smid := by
          refine validateUpTo_noop fuel smid hguardV htgt ?_
          intro rk hrk
          rw [hpres rk.1 rk.2]
          exact hpresT rk hrk
        have hG2 : getWalkerAt C cfg fuel c i a smid = .ok (w1, s2) := by
          unfold getWalkerAt
          rw [hguard, hnoop]
          exact hcall2
        refine ⟨s2, ?_, hann2⟩
        rw [hG2]
        dsimp only
        rw [hr1]

theorem claim_C5_witness :
    AnnOK (initState sampleCtx).annots (initState sampleCtx).validationEvents.length ∧
    possibleAt sampleCtx {} 9 (.tree []) 1 false (initState sampleCtx) =
      .ok (c5First.1, c5First.2) ∧
    ∃ s2, possibleAt sampleCtx {} 9 (.tree []) 1 false c5First.2 =
        .ok (c5First.1, s2) ∧ s2.annots = c5First.2.annots :=
  ⟨annOK_initState sampleCtx, rfl,
   claim_C5 sampleCtx {} 9 (.tree []) 1 false (initState sampleCtx) c5First.2
     c5First.1 (annOK_initState sampleCtx) rfl⟩

end SalveDom
